import Mathlib

/-!
# Verification of the sandboxed filesystem agent core

A shallow embedding of the two core source files of the repository:

* `filesystem_server.py` — `MCPFilesystemServer`: the path guard
  (`_is_path_allowed` / `_get_safe_path`) and the seven filesystem
  operations, each returning either a success dictionary or an
  `{"error": ...}` dictionary.
* `desktop_agent.py` — `DesktopAgent`: the `write_file` argument parser
  (a hand-rolled model of the concrete regex used at line 256), the
  tool-name validation / "list" coercion fallback, and the three bulk
  macros (`move_images_to_folder`, `delete_images`,
  `delete_all_files_in_current_folder`).

Paths are modelled at the parsed level: a candidate path string is an
`abs` flag (`os.path.isabs`) plus its slash-separated components.
`Path.resolve()` is modelled lexically (no symlinks in the model); OS
metadata that the code merely copies into payloads (mtime, ctime,
permission bits, directory st_size) is represented by a dedicated
`Value.meta` marker since wall-clock state is outside the embedding.
File contents are Lean `String`s, i.e. decodable text; the binary
fallback branch of `read_file` (UnicodeDecodeError) is therefore not
reachable in the model and is noted where relevant.
-/

namespace OFA

/-! ## Path model (`pathlib` / `_get_safe_path`) -/

/-- A segment is a plain name: not empty, not `"."`, not `".."`.
`Path.resolve()` output only contains such segments. -/
def validSeg (s : String) : Bool :=
  !(s == "") && !(s == ".") && !(s == "..")

/-- Parsed form of a candidate path string: `abs` is `os.path.isabs(path)`,
`segs` the slash-separated components. -/
structure RawPath where
  abs : Bool
  segs : List String
deriving DecidableEq

/-- `pathlib.PurePath` drops empty components and `"."` components when the
path object is constructed. -/
def normSegs (segs : List String) : List String :=
  segs.filter (fun s => !(s == "") && !(s == "."))

/-- Lexical `Path.resolve()` over already-normalised components: fold over a
base path, `".."` dropping the last component (staying put at the
filesystem root, as POSIX resolution does). -/
def resolveFrom (base : List String) : List String → List String
  | [] => base
  | s :: rest =>
      if s = ".." then resolveFrom base.dropLast rest
      else resolveFrom (base ++ [s]) rest

/-- Resolution as `_get_safe_path` performs it: an absolute candidate is
resolved from the filesystem root, a relative one from the (already
resolved) allowed directory. -/
def resolvePath (root : List String) (p : RawPath) : List String :=
  resolveFrom (if p.abs then [] else root) (normSegs p.segs)

/-- Render a resolved absolute path the way `str(safe_path)` would. -/
def renderPath (segs : List String) : String :=
  "/" ++ String.intercalate "/" segs

/-- Render a parsed candidate path (used only inside messages). -/
def renderRaw (p : RawPath) : String :=
  (if p.abs then "/" else "") ++ String.intercalate "/" p.segs

/-- `MCPFilesystemServer._is_path_allowed`: re-parse and re-resolve the
candidate (the code passes `str(safe_path)`, an absolute path) and test
`resolved.is_relative_to(allowed_directory)`, which on segment lists is
the list-prefix test. -/
def isPathAllowed (root : List String) (q : List String) : Bool :=
  root.isPrefixOf (resolveFrom [] (normSegs q))

/-- `MCPFilesystemServer._get_safe_path`: resolve (absolute directly,
relative against the allowed directory), then gate on
`_is_path_allowed`; a failing gate raises `PermissionError`, which every
operation's `except` block converts to an error payload — modelled as
`Except.error` carrying the exception message. -/
def getSafePath (root : List String) (p : RawPath) : Except String (List String) :=
  let safe := resolvePath root p
  if isPathAllowed root safe then .ok safe
  else .error ("Access denied to path: " ++ renderRaw p)

/-- The allowed directory is itself a `resolve()` output: all of its
segments are plain names. -/
def wfRoot (root : List String) : Bool :=
  root.all validSeg

/-! ## Filesystem model

Resolved absolute paths are segment lists; the filesystem is an
association list from such paths to nodes. `write_text` timestamps and
permission bits are OS state outside the model (see `Value.meta`). -/

/-- A filesystem node: a text file with its content, or a directory. -/
inductive Node where
  | file (content : String)
  | dir
deriving DecidableEq

/-- The filesystem: association list from resolved paths to nodes. -/
abbrev FS := List (List String × Node)

/-- Look up a path (first match). -/
def FS.find : FS → List String → Option Node
  | [], _ => none
  | (k, n) :: rest, p => if p = k then some n else FS.find rest p

/-- Remove the entry at exactly this path (`unlink`). -/
def FS.eraseKey : FS → List String → FS
  | [], _ => []
  | (k, n) :: rest, p => if p = k then rest else (k, n) :: FS.eraseKey rest p

/-- Remove a path and every path below it (`shutil.rmtree`). -/
def FS.eraseTree (fs : FS) (p : List String) : FS :=
  fs.filter (fun e => !(p.isPrefixOf e.1))

/-- Put a node at a path, replacing any previous entry. -/
def FS.setNode (fs : FS) (p : List String) (n : Node) : FS :=
  (p, n) :: fs.eraseKey p

def FS.isDir (fs : FS) (p : List String) : Bool :=
  match fs.find p with
  | some .dir => true
  | _ => false

def FS.isFile (fs : FS) (p : List String) : Bool :=
  match fs.find p with
  | some (.file _) => true
  | _ => false

def FS.existsP (fs : FS) (p : List String) : Bool :=
  (fs.find p).isSome

/-- `Path.mkdir(parents=True, exist_ok=True)` on `base ++ segs`: walk the
components top-down, creating missing directories; hitting an existing
file raises (`FileExistsError` / `NotADirectoryError`), leaving the
directories created so far in place.  Returns the (possibly partially
updated) filesystem and the error message, if any. -/
def mkdirP (fs : FS) (base : List String) : List String → FS × Option String
  | [] => (fs, none)
  | s :: rest =>
      match fs.find (base ++ [s]) with
      | some .dir => mkdirP fs (base ++ [s]) rest
      | some (.file _) => (fs, some ("File exists: " ++ renderPath (base ++ [s])))
      | none => mkdirP (fs.setNode (base ++ [s]) .dir) (base ++ [s]) rest

/-- `safe_path.write_text(content)`: fails if the target is a directory
(`IsADirectoryError`) or its parent is not a directory
(`FileNotFoundError`/`NotADirectoryError`); otherwise creates or
overwrites the file. -/
def writeText (fs : FS) (p : List String) (content : String) : Except String FS :=
  match fs.find p with
  | some .dir => .error ("Is a directory: " ++ renderPath p)
  | _ =>
      if fs.isDir p.dropLast then .ok (fs.setNode p (.file content))
      else .error ("No such file or directory: " ++ renderPath p)

/-- Re-root every entry under `src` to live under `dst`. -/
def FS.rebase (fs : FS) (src dst : List String) : FS :=
  fs.map (fun e =>
    if src.isPrefixOf e.1 then (dst ++ e.1.drop src.length, e.2) else e)

/-- `shutil.move(src, dst)` on one filesystem, source known to exist: if
`dst` is an existing directory the source is moved *inside* it (error if
that target already exists); moving a file over an existing file
overwrites it (POSIX rename); other collisions fail. -/
def shutilMove (fs : FS) (src dst : List String) : Except String FS :=
  if fs.isDir dst then
    let d2 := dst ++ [src.getLastD ""]
    if fs.existsP d2 then
      .error ("Destination path " ++ renderPath d2 ++ " already exists")
    else .ok (fs.rebase src d2)
  else
    match fs.find dst, fs.find src with
    | some (.file _), some (.file _) => .ok ((fs.eraseKey dst).rebase src dst)
    | some _, some _ => .error ("Cannot move " ++ renderPath src ++ " to " ++ renderPath dst)
    | _, _ => .ok (fs.rebase src dst)

/-! ## Result dictionaries -/

/-- An entry of a `list_directory` item list: `{"name": item.name,
"type": "directory"|"file", "size": st_size or None, "modified": ...}`.
The `modified` mtime is OS clock state, not modelled. -/
structure EntryInfo where
  name : String
  kind : String
  size : Option Nat
deriving DecidableEq

/-- A python dictionary value as the payloads use them. `meta` stands for
OS metadata the code merely copies (timestamps, permission strings,
directory st_size). -/
inductive Value where
  | str (s : String)
  | num (n : Nat)
  | null
  | meta
  | entries (l : List EntryInfo)
deriving DecidableEq

/-- A result payload: a python dict, modelled as a key/value list. -/
abbrev Dict := List (String × Value)

/-- Dictionary lookup (first match), i.e. `d["k"]` / `"k" in d`. -/
def dlookup : Dict → String → Option Value
  | [], _ => none
  | (k, v) :: rest, key => if key = k then some v else dlookup rest key

/-- `{"error": str(e)}` -/
def mkErr (e : String) : Dict := [("error", Value.str e)]

/-- `"error" in result` -/
def hasErr (d : Dict) : Bool := (dlookup d "error").isSome

/-- `result["error"]` (always a string in this code base). -/
def getErr (d : Dict) : String :=
  match dlookup d "error" with
  | some (.str e) => e
  | _ => ""

/-! ## The seven operations of `MCPFilesystemServer`

Every method body is a `try`/`except Exception` whose handler returns
`{"error": str(e)}`; the internal `Except` failures below are exactly
the raised exceptions, converted to `mkErr` at the end of each
operation, so each operation is a total function into `Dict` (plus the
updated filesystem for the mutating ones). -/

/-- The direct children of a directory, in storage order, as
`iterdir()` + the item-info dict construction produce them. -/
def children (fs : FS) (sp : List String) : List EntryInfo :=
  fs.filterMap (fun e =>
    if e.1.length = sp.length + 1 && sp.isPrefixOf e.1 then
      some { name := e.1.getLastD ""
             kind := match e.2 with | .dir => "directory" | .file _ => "file"
             size := match e.2 with | .file c => some c.length | .dir => none }
    else none)

/-- `list_directory` (lines 50-82). -/
def listDirectory (root : List String) (fs : FS) (p : RawPath) : Dict :=
  match getSafePath root p with
  | .error e => mkErr e
  | .ok sp =>
      match fs.find sp with
      | none => mkErr ("Directory does not exist: " ++ renderRaw p)
      | some (.file _) => mkErr ("Path is not a directory: " ++ renderRaw p)
      | some .dir =>
          let items := children fs sp
          [("path", .str (renderPath sp)), ("items", .entries items),
           ("count", .num items.length)]

/-- `read_file` (lines 84-120).  File contents are Lean strings, i.e.
valid text, so the `UnicodeDecodeError` binary branch is unreachable in
the model and only the text branch is represented. -/
def readFile (root : List String) (fs : FS) (p : RawPath) : Dict :=
  match getSafePath root p with
  | .error e => mkErr e
  | .ok sp =>
      match fs.find sp with
      | none => mkErr ("File does not exist: " ++ renderRaw p)
      | some .dir => mkErr ("Path is not a file: " ++ renderRaw p)
      | some (.file c) =>
          [("path", .str (renderPath sp)), ("content", .str c),
           ("size", .num c.length), ("type", .str "text")]

/-- `write_file` (lines 122-143): guard, create missing parent
directories, overwrite as text; the success payload reports
`len(content)` as `"size"`. -/
def writeFile (root : List String) (fs : FS) (p : RawPath) (content : String) :
    Dict × FS :=
  match getSafePath root p with
  | .error e => (mkErr e, fs)
  | .ok sp =>
      match mkdirP fs [] sp.dropLast with
      | (fs₁, some e) => (mkErr e, fs₁)
      | (fs₁, none) =>
          match writeText fs₁ sp content with
          | .error e => (mkErr e, fs₁)
          | .ok fs₂ =>
              ([("path", .str (renderPath sp)), ("size", .num content.length),
                ("message", .str "File written successfully")], fs₂)

/-- `create_directory` (lines 145-162). -/
def createDirectory (root : List String) (fs : FS) (p : RawPath) : Dict × FS :=
  match getSafePath root p with
  | .error e => (mkErr e, fs)
  | .ok sp =>
      match mkdirP fs [] sp with
      | (fs₁, some e) => (mkErr e, fs₁)
      | (fs₁, none) =>
          ([("path", .str (renderPath sp)),
            ("message", .str "Directory created successfully")], fs₁)

/-- `delete_file` (lines 164-191).  The `else` branch for an unknown path
type is unreachable: a `Node` is a file or a directory. -/
def deleteFile (root : List String) (fs : FS) (p : RawPath) : Dict × FS :=
  match getSafePath root p with
  | .error e => (mkErr e, fs)
  | .ok sp =>
      match fs.find sp with
      | none => (mkErr ("Path does not exist: " ++ renderRaw p), fs)
      | some (.file _) =>
          ([("path", .str (renderPath sp)),
            ("message", .str "File deleted successfully")], fs.eraseKey sp)
      | some .dir =>
          ([("path", .str (renderPath sp)),
            ("message", .str "Directory deleted successfully")], fs.eraseTree sp)

/-- `move_file` (lines 193-218): both endpoints pass the guard before the
existence check, the parent-directory creation and the move itself. -/
def moveFile (root : List String) (fs : FS) (src dst : RawPath) : Dict × FS :=
  match getSafePath root src with
  | .error e => (mkErr e, fs)
  | .ok ssp =>
      match getSafePath root dst with
      | .error e => (mkErr e, fs)
      | .ok dsp =>
          if fs.existsP ssp = false then
            (mkErr ("Source does not exist: " ++ renderRaw src), fs)
          else
            match mkdirP fs [] dsp.dropLast with
            | (fs₁, some e) => (mkErr e, fs₁)
            | (fs₁, none) =>
                match shutilMove fs₁ ssp dsp with
                | .error e => (mkErr e, fs₁)
                | .ok fs₂ =>
                    ([("source", .str (renderPath ssp)),
                      ("destination", .str (renderPath dsp)),
                      ("message", .str "File moved successfully")], fs₂)

/-- `get_file_info` (lines 220-245): `created`, `modified` and
`permissions` are OS stat metadata (`Value.meta`); a directory's
`st_size` likewise. -/
def getFileInfo (root : List String) (fs : FS) (p : RawPath) : Dict :=
  match getSafePath root p with
  | .error e => mkErr e
  | .ok sp =>
      match fs.find sp with
      | none => mkErr ("Path does not exist: " ++ renderRaw p)
      | some n =>
          [("path", .str (renderPath sp)), ("name", .str (sp.getLastD "")),
           ("type", .str (match n with | .dir => "directory" | .file _ => "file")),
           ("size", match n with | .file c => .num c.length | .dir => .meta),
           ("created", .meta), ("modified", .meta), ("permissions", .meta)]

/-! ## The `write_file` argument parser (`DesktopAgent.execute_tool`)

Line 256 matches the raw argument text against the anchored regex

  `^\s*([\'"]?)(.*?)\1\s*,\s*([\'"]?)(.*)\3\s*$`   (with `re.DOTALL`)

and then applies `.strip()` to groups 2 and 4.  The functions below are
that regex's backtracking semantics, made explicit:

* the leading `\s*` is greedy; shortening it can only hand whitespace to
  the lazy group 2, so the maximal run is the one that decides;
* group 1 (`[\'"]?`) prefers a quote when one is present; the lazy
  group 2 then stops at the first closing quote that is followed by
  (whitespace and) a comma, and if no such closing quote exists the
  engine falls back to an empty group 1;
* with group 1 empty, the lazy group 2 stops at the first comma
  (the `\s*` before the comma only moves trailing whitespace out of
  group 2, which the subsequent `.strip()` removes anyway — see
  `splitFirstComma`);
* the right-hand side `([\'"]?)(.*)\3\s*$` can never fail (group 3 may
  be empty and group 4 swallows the rest), so the engine never
  backtracks across the comma: group 3 prefers a quote, and the greedy
  group 4 then ends at the last closing quote that is followed only by
  whitespace, falling back to an empty group 3. -/

/-- Python `\s` on ASCII text: space, tab, newline, carriage return,
vertical tab, form feed. -/
def isSpace (c : Char) : Bool :=
  c = ' ' || c = '\t' || c = '\n' || c = '\r' || c = '\x0b' || c = '\x0c'

/-- The regex's quote class `[\'"]`. -/
def isQuote (c : Char) : Bool :=
  c = '\'' || c = '"'

/-- Drop leading whitespace (one greedy `\s*`). -/
def dropWs (l : List Char) : List Char :=
  l.dropWhile isSpace

/-- Python `str.strip()`. -/
def pstrip (l : List Char) : List Char :=
  (dropWs ((dropWs l).reverse)).reverse

/-- Match `\s*,` at the front: maximal whitespace run, then a comma
(a shorter run cannot help, whitespace is never a comma). -/
def wsThenComma (l : List Char) : Option (List Char) :=
  match dropWs l with
  | c :: r => if c = ',' then some r else none
  | [] => none

/-- Lazy search for the closing quote of group 1: the first `q` that is
followed by `\s*,`; returns (group 2, text after the comma). -/
def findClose (q : Char) : List Char → Option (List Char × List Char)
  | [] => none
  | c :: cs =>
      if c = q then
        match wsThenComma cs with
        | some r => some ([], r)
        | none =>
            match findClose q cs with
            | some (a, r) => some (c :: a, r)
            | none => none
      else
        match findClose q cs with
        | some (a, r) => some (c :: a, r)
        | none => none

/-- Split at the first comma (the empty-group-1 branch; the whitespace
that `\s*` would shave off group 2's tail is removed by `.strip()`
afterwards, so the split point inside that run does not matter). -/
def splitFirstComma : List Char → Option (List Char × List Char)
  | [] => none
  | c :: cs =>
      if c = ',' then some ([], cs)
      else
        match splitFirstComma cs with
        | some (a, r) => some (c :: a, r)
        | none => none

/-- Greedy search for the closing quote of group 3: the last `q`
followed by whitespace only, i.e. drop the trailing whitespace and
require `q` there. -/
def lastClose (q : Char) (l : List Char) : Option (List Char) :=
  match l.reverse.dropWhile isSpace with
  | c :: rest => if c = q then some rest.reverse else none
  | [] => none

/-- The text after the comma: `\s*` then `([\'"]?)(.*)\3\s*$`. -/
def contentSide (l : List Char) : List Char :=
  match dropWs l with
  | c :: cs =>
      if isQuote c then
        match lastClose c cs with
        | some a => a
        | none => c :: cs
      else c :: cs
  | [] => []

/-- The quoted-group-1 alternative: only tried when the first
(non-whitespace) character is a quote. -/
def quotedPathAttempt : List Char → Option (List Char × List Char)
  | c :: cs => if isQuote c then findClose c cs else none
  | [] => none

/-- The whole match of line 256 plus the two `.strip()` calls of lines
258-259: `none` when the regex does not match. -/
def parseWriteArgs (l : List Char) : Option (List Char × List Char) :=
  match quotedPathAttempt (dropWs l) with
  | some (a, r) => some (pstrip a, pstrip (contentSide r))
  | none =>
      match splitFirstComma (dropWs l) with
      | some (a, r) => some (pstrip a, pstrip (contentSide r))
      | none => none

/-- String-level wrapper. -/
def parseWriteArgsStr (s : String) : Option (String × String) :=
  match parseWriteArgs s.data with
  | some (a, b) => some (String.mk a, String.mk b)
  | none => none

/-- The `write_file` branch of `execute_tool` (lines 247-262): a failed
match returns the error payload naming the expected form. -/
def executeWriteParse (toolArgs : String) : Except Dict (String × String) :=
  match parseWriteArgsStr toolArgs with
  | some pc => .ok pc
  | none =>
      .error (mkErr ("Invalid arguments for write_file: " ++ toolArgs ++
        ". Expected 'path', 'content'"))

/-! ## Tool-name validation (`process_user_input`, lines 122-131) -/

/-- The names of the seven tools, in the order `self.tools` declares
them. -/
def validTools : List String :=
  ["list_directory", "read_file", "write_file", "create_directory",
   "delete_file", "move_file", "get_file_info"]

/-- Python `pattern in text` on lists of characters. -/
def containsSeq (pat : List Char) : List Char → Bool
  | [] => pat.isEmpty
  | c :: cs => pat.isPrefixOf (c :: cs) || containsSeq pat cs

/-- Python `str.lower()` (ASCII). -/
def pyLower (s : String) : String :=
  String.mk (s.data.map Char.toLower)

/-- The message returned for an uncorrectable tool name.  The leading
characters reproduce the repository's literal (mojibake) marker bytes. -/
def unknownToolMsg (toolName : String) : String :=
  "‚ùå Unknown tool: " ++ toolName ++ ". Available tools: " ++
    String.intercalate ", " validTools

/-- Lines 122-131: a valid name passes through; an invalid name whose
lowercase form contains "list" is coerced to `list_directory`, its
arguments defaulting to "." when the (already stripped) argument text
is empty; any other invalid name short-circuits the whole request with
the unknown-tool message. -/
def resolveToolCall (toolName toolArgs : String) : Except String (String × String) :=
  if validTools.contains toolName then .ok (toolName, toolArgs)
  else if containsSeq "list".data (pyLower toolName).data then
    .ok ("list_directory", if toolArgs = "" then "." else toolArgs)
  else .error (unknownToolMsg toolName)

/-! ## The bulk macros of `DesktopAgent`

The literal `‚ùå` / `‚úÖ` prefixes reproduce the repository's marker
bytes exactly as committed.  Each macro takes and returns the
filesystem; a file name handed to an operation is a single path
component (`iterdir()` names contain no separator). -/

/-- `image_extensions` (lines 434 and 469). -/
def imageExtensions : List String :=
  [".jpg", ".jpeg", ".png", ".gif", ".bmp", ".tiff", ".webp"]

/-- Python `str.endswith`. -/
def pyEndsWith (s suffix : String) : Bool :=
  suffix.data.isSuffixOf s.data

/-- `any(name_lower.endswith(ext) for ext in image_extensions)`. -/
def isImageName (name : String) : Bool :=
  imageExtensions.any (fun ext => pyEndsWith (pyLower name) ext)

/-- `list_result.get("items", [])`. -/
def getItems (d : Dict) : List EntryInfo :=
  match dlookup d "items" with
  | some (.entries l) => l
  | _ => []

/-- The move loop of `move_images_to_folder` (lines 447-452): each file is
moved from `./{name}` to `./{folder}/{name}`; the first error ends the
loop and becomes the reply, `none` means every move succeeded. -/
def moveImagesLoop (root : List String) (folder : String) (fs : FS) :
    List String → FS × Option String
  | [] => (fs, none)
  | f :: rest =>
      if hasErr (moveFile root fs ⟨false, [".", f]⟩ ⟨false, [".", folder, f]⟩).1 then
        ((moveFile root fs ⟨false, [".", f]⟩ ⟨false, [".", folder, f]⟩).2,
          some ("‚ùå Error moving " ++ f ++ ": " ++
            getErr (moveFile root fs ⟨false, [".", f]⟩ ⟨false, [".", folder, f]⟩).1))
      else moveImagesLoop root folder
        (moveFile root fs ⟨false, [".", f]⟩ ⟨false, [".", folder, f]⟩).2 rest

/-- `move_images_to_folder` (lines 425-458). -/
def moveImagesToFolder (root : List String) (fs : FS) (folder : String) :
    String × FS :=
  let listResult := listDirectory root fs ⟨false, ["."]⟩
  if hasErr listResult then
    ("‚ùå Error listing files: " ++ getErr listResult, fs)
  else
    let imageFiles := (getItems listResult).filterMap
      (fun it => if it.kind == "file" && isImageName it.name then some it.name else none)
    if imageFiles.isEmpty then ("‚ùå No image files found to move.", fs)
    else
      match moveImagesLoop root folder fs imageFiles with
      | (fs', some msg) => (msg, fs')
      | (fs', none) =>
          ("‚úÖ Successfully moved " ++ toString imageFiles.length ++
            " image files to " ++ folder ++ ".", fs')

/-- The delete loop of `delete_images` (lines 482-485): stops at the
first failing file, whose error becomes the whole reply. -/
def deleteImagesLoop (root : List String) (fs : FS) :
    List String → FS × Option String
  | [] => (fs, none)
  | f :: rest =>
      if hasErr (deleteFile root fs ⟨false, [f]⟩).1 then
        ((deleteFile root fs ⟨false, [f]⟩).2,
          some ("‚ùå Error deleting " ++ f ++ ": " ++
            getErr (deleteFile root fs ⟨false, [f]⟩).1))
      else deleteImagesLoop root (deleteFile root fs ⟨false, [f]⟩).2 rest

/-- `delete_images` (lines 460-491). -/
def deleteImages (root : List String) (fs : FS) : String × FS :=
  let listResult := listDirectory root fs ⟨false, ["."]⟩
  if hasErr listResult then
    ("‚ùå Error listing files: " ++ getErr listResult, fs)
  else
    let imageFiles := (getItems listResult).filterMap
      (fun it => if it.kind == "file" && isImageName it.name then some it.name else none)
    if imageFiles.isEmpty then ("‚ùå No image files found to delete.", fs)
    else
      match deleteImagesLoop root fs imageFiles with
      | (fs', some msg) => (msg, fs')
      | (fs', none) =>
          ("‚úÖ Successfully deleted " ++ toString imageFiles.length ++
            " image files.", fs')

/-- The loop of `delete_all_files_in_current_folder` (lines 506-513):
every file is attempted; failures are collected in order, successes
counted. -/
def deleteAllLoop (root : List String) (fs : FS) :
    List String → Nat × List String × FS
  | [] => (0, [], fs)
  | f :: rest =>
      if hasErr (deleteFile root fs ⟨false, [f]⟩).1 then
        ((deleteAllLoop root (deleteFile root fs ⟨false, [f]⟩).2 rest).1,
         ("‚ùå Error deleting " ++ f ++ ": " ++
            getErr (deleteFile root fs ⟨false, [f]⟩).1) ::
           (deleteAllLoop root (deleteFile root fs ⟨false, [f]⟩).2 rest).2.1,
         (deleteAllLoop root (deleteFile root fs ⟨false, [f]⟩).2 rest).2.2)
      else
        ((deleteAllLoop root (deleteFile root fs ⟨false, [f]⟩).2 rest).1 + 1,
         (deleteAllLoop root (deleteFile root fs ⟨false, [f]⟩).2 rest).2.1,
         (deleteAllLoop root (deleteFile root fs ⟨false, [f]⟩).2 rest).2.2)

/-- `delete_all_files_in_current_folder` (lines 493-522). -/
def deleteAllFilesInCurrentFolder (root : List String) (fs : FS) : String × FS :=
  let listResult := listDirectory root fs ⟨false, ["."]⟩
  if hasErr listResult then
    ("‚ùå Error listing files to delete: " ++ getErr listResult, fs)
  else
    let filesToDelete := (getItems listResult).filterMap
      (fun it => if it.kind == "file" then some it.name else none)
    if filesToDelete.isEmpty then
      ("‚úÖ No files found in the current folder to delete.", fs)
    else
      match deleteAllLoop root fs filesToDelete with
      | (c, [], fs') =>
          ("‚úÖ Successfully deleted " ++ toString c ++
            " files in the current folder.", fs')
      | (c, errs, fs') =>
          ("‚úÖ Deleted " ++ toString c ++ " files. Some errors occurred: " ++
            String.intercalate "; " errs, fs')

/-- The error payload and the error-free payload are mutually exclusive
and a payload of either kind satisfies exactly one of the two. -/
def errShape (d : Dict) : Prop := ∃ s, d = [("error", Value.str s)]

def okShape (d : Dict) : Prop := dlookup d "error" = none

def exactlyOneShape (d : Dict) : Prop :=
  (errShape d ∧ ¬ okShape d) ∨ (okShape d ∧ ¬ errShape d)

/-- Python `pattern in text`. -/
def strContains (pat s : String) : Bool :=
  containsSeq pat.data s.data

/-! ### Whitespace-stripping lemmas (for the parser claims) -/

/-- The list does not start with whitespace. -/
def noLeadWs : List Char → Prop
  | [] => True
  | c :: _ => isSpace c = false

/-- The list does not end with whitespace. -/
def noTrailWs (l : List Char) : Prop := noLeadWs l.reverse

/-! ### Lemmas for the delete-all-files macro -/

/-- An entry that the delete-all macro targets: a direct child of the
root that is a file. -/
def isDirectFileChild (root : List String) (e : List String × Node) : Bool :=
  (e.1.length == root.length + 1) && root.isPrefixOf e.1 &&
    (match e.2 with | .file _ => true | .dir => false)

/-- Association-list well-formedness: stored paths are pairwise
distinct. -/
def keysNodup (fs : FS) : Prop := (fs.map Prod.fst).Nodup

/-- A sample sandbox: the root with three files and one subdirectory
that itself holds a file. -/
def sampleFs : FS :=
  [(["r"], .dir), (["r", "a.txt"], .file "A"), (["r", "b.txt"], .file "BB"),
   (["r", "c.txt"], .file "CCC"), (["r", "sub"], .dir),
   (["r", "sub", "keep.txt"], .file "K")]

/-! ### Resolution lemmas -/

theorem resolveFrom_all_valid (P : String → Prop) :
    ∀ (l base : List String), (∀ s ∈ base, P s) →
      (∀ s ∈ l, s = ".." ∨ P s) →
      ∀ x ∈ resolveFrom base l, P x := by
  intro l
  induction l with
  | nil => intro base hb _ x hx; exact hb x hx
  | cons s rest ih =>
      intro base hb hl x hx
      rw [resolveFrom] at hx
      by_cases hs : s = ".."
      · rw [if_pos hs] at hx
        refine ih base.dropLast ?_ (fun t ht => hl t (by simp [ht])) x hx
        intro t ht
        exact hb t (List.dropLast_subset _ ht)
      · rw [if_neg hs] at hx
        refine ih (base ++ [s]) ?_ (fun t ht => hl t (by simp [ht])) x hx
        intro t ht
        rcases List.mem_append.mp ht with h | h
        · exact hb t h
        · rcases List.mem_singleton.mp h with rfl
          rcases hl t (by simp) with h' | h'
          · exact absurd h' hs
          · exact h'

theorem resolveFrom_no_dotdot (l base : List String)
    (h : ∀ s ∈ l, s ≠ "..") : resolveFrom base l = base ++ l := by
  induction l generalizing base with
  | nil => simp [resolveFrom]
  | cons s rest ih =>
      rw [resolveFrom, if_neg (h s (by simp))]
      rw [ih (base ++ [s]) (fun t ht => h t (by simp [ht]))]
      simp

theorem normSegs_of_valid (q : List String) (h : ∀ x ∈ q, validSeg x = true) :
    normSegs q = q := by
  apply List.filter_eq_self.mpr
  intro a ha
  have := h a ha
  unfold validSeg at this
  simp only [Bool.and_eq_true, Bool.not_eq_true'] at this ⊢
  exact ⟨this.1.1, this.1.2⟩

theorem resolvePath_valid (root : List String) (p : RawPath)
    (hroot : wfRoot root = true) :
    ∀ x ∈ resolvePath root p, validSeg x = true := by
  unfold resolvePath
  apply resolveFrom_all_valid (fun s => validSeg s = true)
  · intro s hs
    cases hab : p.abs
    · simp only [hab, if_neg] at hs ⊢
      exact List.all_eq_true.mp hroot s (by simpa using hs)
    · simp [hab] at hs
  · intro s hs
    unfold normSegs at hs
    have := List.of_mem_filter hs
    simp only [Bool.and_eq_true, Bool.not_eq_true'] at this
    by_cases hdd : s = ".."
    · exact Or.inl hdd
    · refine Or.inr ?_
      unfold validSeg
      simp only [Bool.and_eq_true, Bool.not_eq_true']
      exact ⟨⟨this.1, this.2⟩, by simpa using hdd⟩

/-- Re-resolving an already resolved path is the identity. -/
theorem resolve_idem (q : List String) (h : ∀ x ∈ q, validSeg x = true) :
    resolveFrom [] (normSegs q) = q := by
  rw [normSegs_of_valid q h]
  rw [resolveFrom_no_dotdot q [] ?_]
  · simp
  · intro s hs
    have := h s hs
    unfold validSeg at this
    simp only [Bool.and_eq_true, Bool.not_eq_true', beq_eq_false_iff_ne, ne_eq] at this
    exact this.2

/-! ## Helper lemmas -/

/-- Boolean prefix test to propositional prefix. -/
theorem isPrefixOf_true (l₁ l₂ : List String) (h : l₁.isPrefixOf l₂ = true) :
    l₁ <+: l₂ := by
  induction l₁ generalizing l₂ with
  | nil => exact ⟨l₂, rfl⟩
  | cons a as ih =>
      cases l₂ with
      | nil => simp [List.isPrefixOf] at h
      | cons b bs =>
          simp only [List.isPrefixOf, Bool.and_eq_true, beq_iff_eq] at h
          obtain ⟨rfl, h2⟩ := h
          obtain ⟨t, ht⟩ := ih bs h2
          exact ⟨t, by rw [List.cons_append, ht]⟩

theorem errShape_not_ok {d : Dict} (h : errShape d) : ¬ okShape d := by
  obtain ⟨s, rfl⟩ := h
  unfold okShape dlookup
  simp

theorem exactlyOne_err (e : String) : exactlyOneShape (mkErr e) :=
  Or.inl ⟨⟨e, rfl⟩, errShape_not_ok ⟨e, rfl⟩⟩

theorem exactlyOne_ok {d : Dict} (h : dlookup d "error" = none) :
    exactlyOneShape d :=
  Or.inr ⟨h, fun he => errShape_not_ok he h⟩

theorem isPrefixOf_append_self {α : Type} [BEq α] [LawfulBEq α]
    (l t : List α) : l.isPrefixOf (l ++ t) = true := by
  induction l with
  | nil => simp [List.isPrefixOf]
  | cons a as ih =>
      show (a == a && as.isPrefixOf (as ++ t)) = true
      simp [ih]

theorem containsSeq_append_left (pat l₁ l₂ : List Char)
    (h : containsSeq pat l₂ = true) : containsSeq pat (l₁ ++ l₂) = true := by
  induction l₁ with
  | nil => exact h
  | cons c cs ih =>
      show (pat.isPrefixOf (c :: (cs ++ l₂)) || containsSeq pat (cs ++ l₂)) = true
      rw [ih]
      simp

theorem containsSeq_self_append (pat rest : List Char) :
    containsSeq pat (pat ++ rest) = true := by
  cases pat with
  | nil =>
      cases rest with
      | nil => rfl
      | cons c cs =>
          show (List.isPrefixOf [] (c :: cs) || containsSeq [] cs) = true
          simp [List.isPrefixOf]
  | cons p ps =>
      show ((p :: ps).isPrefixOf (p :: (ps ++ rest)) || containsSeq (p :: ps) (ps ++ rest)) = true
      have : (p :: ps).isPrefixOf ((p :: ps) ++ rest) = true := isPrefixOf_append_self _ _
      rw [List.cons_append] at this
      rw [this]
      simp

theorem noLead_dropWs (l : List Char) : noLeadWs (dropWs l) := by
  induction l with
  | nil => trivial
  | cons c cs ih =>
      unfold dropWs at ih ⊢
      rw [List.dropWhile_cons]
      by_cases h : isSpace c = true
      · simpa [h] using ih
      · simp only [h, if_false]
        simpa [noLeadWs] using h

theorem noLead_of_pre (l₁ l₂ : List Char) (h : l₁ <+: l₂)
    (h₂ : noLeadWs l₂) : noLeadWs l₁ := by
  cases l₁ with
  | nil => trivial
  | cons c cs =>
      obtain ⟨t, ht⟩ := h
      rw [← ht] at h₂
      exact h₂

theorem reverse_dropWs_reverse_pre (l : List Char) :
    (dropWs l.reverse).reverse <+: l := by
  obtain ⟨t, ht⟩ := List.dropWhile_suffix (l := l.reverse) isSpace
  refine ⟨t.reverse, ?_⟩
  have := congrArg List.reverse ht
  simpa using this

theorem noTrail_pstrip (l : List Char) : noTrailWs (pstrip l) := by
  unfold noTrailWs pstrip
  rw [List.reverse_reverse]
  exact noLead_dropWs _

theorem noLead_pstrip (l : List Char) : noLeadWs (pstrip l) := by
  unfold pstrip
  refine noLead_of_pre _ (dropWs l) ?_ (noLead_dropWs l)
  exact reverse_dropWs_reverse_pre (dropWs l)

/-- Whatever the regex matched, the published groups are the result of
`.strip()`. -/
theorem parseWriteArgs_stripped (l : List Char) (a b : List Char)
    (h : parseWriteArgs l = some (a, b)) :
    (∃ x, a = pstrip x) ∧ ∃ y, b = pstrip y := by
  unfold parseWriteArgs at h
  split at h
  · injection h with h'
    injection h' with h₁ h₂
    exact ⟨⟨_, h₁.symm⟩, _, h₂.symm⟩
  · split at h
    · injection h with h'
      injection h' with h₁ h₂
      exact ⟨⟨_, h₁.symm⟩, _, h₂.symm⟩
    · cases h

/-! ### Parser lemmas -/

theorem quote_not_space (q : Char) (h : isQuote q = true) : isSpace q = false := by
  unfold isQuote at h
  simp only [Bool.or_eq_true, decide_eq_true_eq] at h
  rcases h with rfl | rfl <;> rfl

theorem mem_dropWs (l : List Char) (x : Char) (hx : x ∈ dropWs l) : x ∈ l :=
  (List.dropWhile_suffix isSpace).subset hx

theorem dropWs_append_cons (p r : List Char) (x : Char) (hx : isSpace x = false) :
    dropWs (p ++ x :: r) = dropWs p ++ x :: r := by
  induction p with
  | nil => simp [dropWs, List.dropWhile_cons, hx]
  | cons a as ih =>
      unfold dropWs at ih ⊢
      rw [List.cons_append, List.dropWhile_cons, List.dropWhile_cons]
      by_cases h : isSpace a = true
      · simp only [h, if_true]
        exact ih
      · simp [h]

theorem dropWs_idem (l : List Char) : dropWs (dropWs l) = dropWs l := by
  cases h : dropWs l with
  | nil => rfl
  | cons c cs =>
      have hn := noLead_dropWs l
      rw [h] at hn
      have hc : isSpace c = false := hn
      unfold dropWs
      rw [List.dropWhile_cons]
      simp [hc]

theorem pstrip_dropWs (l : List Char) : pstrip (dropWs l) = pstrip l := by
  unfold pstrip
  rw [dropWs_idem]

theorem splitFirstComma_append (a r : List Char) (ha : ∀ ch ∈ a, ch ≠ ',') :
    splitFirstComma (a ++ ',' :: r) = some (a, r) := by
  induction a with
  | nil => simp [splitFirstComma]
  | cons x xs ih =>
      rw [List.cons_append]
      unfold splitFirstComma
      rw [if_neg (ha x (by simp))]
      rw [ih (fun ch hch => ha ch (by simp [hch]))]

theorem wsThenComma_comma (rest : List Char) :
    wsThenComma (',' :: rest) = some rest := by
  have hsp : isSpace ',' = false := rfl
  unfold wsThenComma dropWs
  rw [List.dropWhile_cons]
  simp [hsp]

theorem findClose_append (q : Char) (p rest : List Char)
    (hp : ∀ ch ∈ p, ch ≠ q) :
    findClose q (p ++ (q :: (',' :: rest))) = some (p, rest) := by
  induction p with
  | nil =>
      show findClose q (q :: ',' :: rest) = some ([], rest)
      unfold findClose
      rw [if_pos rfl, wsThenComma_comma]
  | cons x xs ih =>
      rw [List.cons_append]
      unfold findClose
      rw [if_neg (hp x (by simp))]
      rw [ih (fun ch hch => hp ch (by simp [hch]))]

theorem lastClose_concat (q : Char) (c : List Char) (hq : isSpace q = false) :
    lastClose q (c ++ [q]) = some c := by
  unfold lastClose
  rw [List.reverse_append]
  simp only [List.reverse_cons, List.reverse_nil, List.nil_append, List.cons_append,
    List.singleton_append]
  rw [List.dropWhile_cons]
  simp [hq]

theorem contentSide_no_quote (c : List Char) (hc : ∀ ch ∈ c, isQuote ch = false) :
    contentSide c = dropWs c := by
  unfold contentSide
  cases hd : dropWs c with
  | nil => rfl
  | cons x xs =>
      have hx : isQuote x = false := hc x (mem_dropWs c x (by rw [hd]; simp))
      simp [hx]

/-! ### Bulk-macro loop lemmas -/

theorem moveImagesLoop_stop (root : List String) (folder : String) :
    ∀ (pre : List String) (fs : FS) (f : String) (post : List String),
      (moveImagesLoop root folder fs pre).2 = none →
      hasErr (moveFile root (moveImagesLoop root folder fs pre).1
          ⟨false, [".", f]⟩ ⟨false, [".", folder, f]⟩).1 = true →
      moveImagesLoop root folder fs (pre ++ f :: post) =
        moveImagesLoop root folder fs (pre ++ [f]) ∧
      (moveImagesLoop root folder fs (pre ++ f :: post)).2 =
        some ("‚ùå Error moving " ++ f ++ ": " ++
          getErr (moveFile root (moveImagesLoop root folder fs pre).1
            ⟨false, [".", f]⟩ ⟨false, [".", folder, f]⟩).1) := by
  intro pre
  induction pre with
  | nil =>
      intro fs f post _ herr
      simp only [moveImagesLoop] at herr
      constructor
      · simp only [List.nil_append, moveImagesLoop, herr, if_true]
      · simp only [List.nil_append, moveImagesLoop, herr, if_true]
  | cons g pre' ih =>
      intro fs f post hnone herr
      have hg : hasErr (moveFile root fs ⟨false, [".", g]⟩
          ⟨false, [".", folder, g]⟩).1 = false := by
        by_contra hgg
        rw [Bool.not_eq_false] at hgg
        simp only [moveImagesLoop, hgg, if_true] at hnone
        cases hnone
      have hstep : ∀ l, moveImagesLoop root folder fs (g :: l) =
          moveImagesLoop root folder
            (moveFile root fs ⟨false, [".", g]⟩ ⟨false, [".", folder, g]⟩).2 l := by
        intro l
        simp only [moveImagesLoop, hg, Bool.false_eq_true, if_false]
      rw [hstep] at hnone
      rw [hstep] at herr
      rw [List.cons_append, hstep (pre' ++ f :: post), List.cons_append,
        hstep (pre' ++ [f]), hstep pre']
      exact ih _ f post hnone herr

theorem deleteImagesLoop_stop (root : List String) :
    ∀ (pre : List String) (fs : FS) (f : String) (post : List String),
      (deleteImagesLoop root fs pre).2 = none →
      hasErr (deleteFile root (deleteImagesLoop root fs pre).1
          ⟨false, [f]⟩).1 = true →
      deleteImagesLoop root fs (pre ++ f :: post) =
        deleteImagesLoop root fs (pre ++ [f]) ∧
      (deleteImagesLoop root fs (pre ++ f :: post)).2 =
        some ("‚ùå Error deleting " ++ f ++ ": " ++
          getErr (deleteFile root (deleteImagesLoop root fs pre).1
            ⟨false, [f]⟩).1) := by
  intro pre
  induction pre with
  | nil =>
      intro fs f post _ herr
      simp only [deleteImagesLoop] at herr
      constructor
      · simp only [List.nil_append, deleteImagesLoop, herr, if_true]
      · simp only [List.nil_append, deleteImagesLoop, herr, if_true]
  | cons g pre' ih =>
      intro fs f post hnone herr
      have hg : hasErr (deleteFile root fs ⟨false, [g]⟩).1 = false := by
        by_contra hgg
        rw [Bool.not_eq_false] at hgg
        simp only [deleteImagesLoop, hgg, if_true] at hnone
        cases hnone
      have hstep : ∀ l, deleteImagesLoop root fs (g :: l) =
          deleteImagesLoop root (deleteFile root fs ⟨false, [g]⟩).2 l := by
        intro l
        simp only [deleteImagesLoop, hg, Bool.false_eq_true, if_false]
      rw [hstep] at hnone
      rw [hstep] at herr
      rw [List.cons_append, hstep (pre' ++ f :: post), List.cons_append,
        hstep (pre' ++ [f]), hstep pre']
      exact ih _ f post hnone herr

theorem deleteAllLoop_append (root : List String) :
    ∀ (pre post : List String) (fs : FS),
      deleteAllLoop root fs (pre ++ post) =
        ((deleteAllLoop root fs pre).1 +
            (deleteAllLoop root (deleteAllLoop root fs pre).2.2 post).1,
         (deleteAllLoop root fs pre).2.1 ++
            (deleteAllLoop root (deleteAllLoop root fs pre).2.2 post).2.1,
         (deleteAllLoop root (deleteAllLoop root fs pre).2.2 post).2.2) := by
  intro pre
  induction pre with
  | nil => intro post fs; simp [deleteAllLoop]
  | cons g pre' ih =>
      intro post fs
      by_cases hg : hasErr (deleteFile root fs ⟨false, [g]⟩).1 = true
      · have hih := ih post (deleteFile root fs ⟨false, [g]⟩).2
        simp only [List.cons_append, deleteAllLoop, hg, if_true, List.append_eq] at hih ⊢
        rw [hih]
      · rw [Bool.not_eq_true] at hg
        have hih := ih post (deleteFile root fs ⟨false, [g]⟩).2
        simp only [List.cons_append, deleteAllLoop, hg, Bool.false_eq_true, if_false,
          List.append_eq] at hih ⊢
        rw [hih]
        refine Prod.ext ?_ rfl
        simp only
        omega

theorem deleteAllLoop_total (root : List String) :
    ∀ (files : List String) (fs : FS),
      (deleteAllLoop root fs files).1 +
        (deleteAllLoop root fs files).2.1.length = files.length := by
  intro files
  induction files with
  | nil => intro fs; simp [deleteAllLoop]
  | cons f rest ih =>
      intro fs
      by_cases hf : hasErr (deleteFile root fs ⟨false, [f]⟩).1 = true
      · simp only [deleteAllLoop, hf, if_true, List.length_cons]
        have := ih (deleteFile root fs ⟨false, [f]⟩).2
        omega
      · rw [Bool.not_eq_true] at hf
        simp only [deleteAllLoop, hf, Bool.false_eq_true, if_false, List.length_cons]
        have := ih (deleteFile root fs ⟨false, [f]⟩).2
        omega

/-! ### Filesystem lemmas -/

theorem find_eraseKey_ne (fs : FS) (k p : List String) (h : p ≠ k) :
    (FS.eraseKey fs k).find p = fs.find p := by
  induction fs with
  | nil => rfl
  | cons e rest ih =>
      obtain ⟨ek, en⟩ := e
      simp only [FS.eraseKey]
      by_cases hk : k = ek
      · subst hk
        rw [if_pos rfl]
        simp only [FS.find]
        rw [if_neg h]
      · rw [if_neg hk]
        simp only [FS.find]
        by_cases hp : p = ek
        · rw [if_pos hp, if_pos hp]
        · rw [if_neg hp, if_neg hp]
          exact ih

theorem find_setNode_self (fs : FS) (p : List String) (n : Node) :
    (fs.setNode p n).find p = some n := by
  simp only [FS.setNode, FS.find]
  simp

theorem find_setNode_ne (fs : FS) (k p : List String) (n : Node) (h : p ≠ k) :
    (fs.setNode k n).find p = fs.find p := by
  simp only [FS.setNode, FS.find]
  rw [if_neg h]
  exact find_eraseKey_ne fs k p h

/-- A list grows strictly when a non-empty list is appended. -/
theorem append_ne_self (b l : List String) (hl : l ≠ []) : b ++ l ≠ b := by
  intro h
  have hlen := congrArg List.length h
  rw [List.length_append] at hlen
  have hz : l.length = 0 := by omega
  exact hl (List.eq_nil_of_length_eq_zero hz)

theorem self_ne_append (b l : List String) (hl : l ≠ []) : b ≠ b ++ l :=
  fun h => append_ne_self b l hl h.symm

/-- What `mkdir(parents=True, exist_ok=True)` guarantees when no path on
the way down exists as a file: it succeeds, afterwards every non-empty
prefix of the requested path (under the base) is a directory, and every
other path is untouched. -/
theorem mkdirP_spec : ∀ (segs base : List String) (fs : FS),
    (∀ l, l ≠ [] → l <+: segs → ∀ cnd, fs.find (base ++ l) ≠ some (.file cnd)) →
    (mkdirP fs base segs).2 = none ∧
    (∀ l, l <+: segs → l ≠ [] → (mkdirP fs base segs).1.find (base ++ l) = some .dir) ∧
    (∀ p, (∀ l, l <+: segs → l ≠ [] → p ≠ base ++ l) →
        (mkdirP fs base segs).1.find p = fs.find p) := by
  intro segs
  induction segs with
  | nil =>
      intro base fs _
      refine ⟨rfl, ?_, ?_⟩
      · intro l hl hne
        rw [List.prefix_nil.mp hl] at hne
        exact absurd rfl hne
      · intro p _
        rfl
  | cons s rest ih =>
      intro base fs h
      have hcons : ∀ l : List String, l <+: rest → (s :: l) <+: (s :: rest) := by
        intro l hpre
        obtain ⟨t, ht⟩ := hpre
        exact ⟨t, by rw [List.cons_append, ht]⟩
      have happ : ∀ l : List String, (base ++ [s]) ++ l = base ++ (s :: l) := by
        intro l
        rw [List.append_assoc, List.singleton_append]
      cases hq : fs.find (base ++ [s]) with
      | some n =>
          cases n with
          | dir =>
              have heq : mkdirP fs base (s :: rest) = mkdirP fs (base ++ [s]) rest := by
                simp only [mkdirP]
                rw [hq]
              obtain ⟨ha, hb, hc⟩ := ih (base ++ [s]) fs (by
                intro l hl hlp cnd
                rw [happ]
                exact h (s :: l) (by simp) (hcons l hlp) cnd)
              rw [heq]
              refine ⟨ha, ?_, ?_⟩
              · intro l hl hlne
                cases l with
                | nil => exact absurd rfl hlne
                | cons a l' =>
                    obtain ⟨t, ht⟩ := hl
                    rw [List.cons_append] at ht
                    have has : a = s := ((List.cons.injEq a _ s _).mp ht).1
                    have hlt : l' ++ t = rest := ((List.cons.injEq a _ s _).mp ht).2
                    rw [has]
                    rw [show base ++ (s :: l') = (base ++ [s]) ++ l' from (happ l').symm]
                    cases hl' : l' with
                    | nil =>
                        rw [List.append_nil]
                        rw [hc (base ++ [s]) (fun l'' _ hne => self_ne_append _ l'' hne)]
                        exact hq
                    | cons b l'' =>
                        rw [← hl']
                        exact hb l' ⟨t, by rw [hlt]⟩ (by rw [hl']; simp)
              · intro p hp
                refine hc p ?_
                intro l hl hlne
                rw [happ]
                exact hp (s :: l) (hcons l hl) (by simp)
          | file c =>
              exact absurd hq (h [s] (by simp) ⟨rest, rfl⟩ c)
      | none =>
          have heq : mkdirP fs base (s :: rest) =
              mkdirP (fs.setNode (base ++ [s]) .dir) (base ++ [s]) rest := by
            simp only [mkdirP]
            rw [hq]
          obtain ⟨ha, hb, hc⟩ := ih (base ++ [s]) (fs.setNode (base ++ [s]) .dir) (by
            intro l hl hlp cnd
            rw [find_setNode_ne _ _ _ _ (append_ne_self _ l hl)]
            rw [happ]
            exact h (s :: l) (by simp) (hcons l hlp) cnd)
          rw [heq]
          refine ⟨ha, ?_, ?_⟩
          · intro l hl hlne
            cases l with
            | nil => exact absurd rfl hlne
            | cons a l' =>
                obtain ⟨t, ht⟩ := hl
                rw [List.cons_append] at ht
                have has : a = s := ((List.cons.injEq a _ s _).mp ht).1
                have hlt : l' ++ t = rest := ((List.cons.injEq a _ s _).mp ht).2
                rw [has]
                rw [show base ++ (s :: l') = (base ++ [s]) ++ l' from (happ l').symm]
                cases hl' : l' with
                | nil =>
                    rw [List.append_nil]
                    rw [hc (base ++ [s]) (fun l'' _ hne => self_ne_append _ l'' hne)]
                    exact find_setNode_self fs (base ++ [s]) .dir
                | cons b l'' =>
                    rw [← hl']
                    exact hb l' ⟨t, by rw [hlt]⟩ (by rw [hl']; simp)
          · intro p hp
            rw [hc p (by
              intro l hl hlne
              rw [happ]
              exact hp (s :: l) (hcons l hl) (by simp))]
            exact find_setNode_ne _ _ _ _ (hp [s] ⟨rest, rfl⟩ (by simp))

/-- The guard accepts a relative path of plain segments and resolves it
to root-plus-segments. -/
theorem guard_ok (root segs : List String) (hroot : wfRoot root = true)
    (hsegs : ∀ s ∈ segs, validSeg s = true) :
    getSafePath root ⟨false, segs⟩ = .ok (root ++ segs) := by
  have hall : ∀ x ∈ root ++ segs, validSeg x = true := by
    intro x hx
    rcases List.mem_append.mp hx with h | h
    · exact List.all_eq_true.mp hroot x h
    · exact hsegs x h
  have hres : resolvePath root ⟨false, segs⟩ = root ++ segs := by
    unfold resolvePath
    simp only [Bool.false_eq_true, if_false]
    rw [normSegs_of_valid segs hsegs]
    exact resolveFrom_no_dotdot segs root (fun s hs => by
      have hv := hsegs s hs
      unfold validSeg at hv
      simp only [Bool.and_eq_true, Bool.not_eq_true', beq_eq_false_iff_ne, ne_eq] at hv
      exact hv.2)
  have hallow : isPathAllowed root (root ++ segs) = true := by
    unfold isPathAllowed
    rw [resolve_idem (root ++ segs) hall]
    exact isPrefixOf_append_self root segs
  unfold getSafePath
  simp only [hres, hallow, if_true]

theorem directFileChild_iff (root : List String) (e : List String × Node) :
    isDirectFileChild root e = true ↔
      ∃ x cnd, e.1 = root ++ [x] ∧ e.2 = .file cnd := by
  constructor
  · intro h
    unfold isDirectFileChild at h
    simp only [Bool.and_eq_true, beq_iff_eq] at h
    obtain ⟨⟨hlen, hpre⟩, hnode⟩ := h
    obtain ⟨t, ht⟩ := isPrefixOf_true root e.1 hpre
    have htlen : t.length = 1 := by
      have := congrArg List.length ht
      rw [List.length_append] at this
      omega
    obtain ⟨x, hx⟩ := List.length_eq_one.mp htlen
    cases he : e.2 with
    | dir => rw [he] at hnode; cases hnode
    | file cnd =>
        exact ⟨x, cnd, by rw [← ht, hx], rfl⟩
  · rintro ⟨x, cnd, h1, h2⟩
    unfold isDirectFileChild
    rw [h1, h2]
    simp only [Bool.and_eq_true, beq_iff_eq]
    refine ⟨⟨by simp, isPrefixOf_append_self root [x]⟩, ?_⟩
    trivial

theorem filterMap_if_eq_map_filter {α β : Type} (p : α → Bool) (g : α → β)
    (l : List α) :
    l.filterMap (fun a => if p a then some (g a) else none) =
      (l.filter p).map g := by
  induction l with
  | nil => rfl
  | cons a t ih =>
      by_cases h : p a = true
      · simp [List.filterMap_cons, List.filter_cons, h, ih]
      · simp [List.filterMap_cons, List.filter_cons, h, ih]

theorem find_eq_of_mem (fs : FS) (k : List String) (n : Node)
    (hk : keysNodup fs) (hm : (k, n) ∈ fs) : fs.find k = some n := by
  induction fs with
  | nil => cases hm
  | cons e t ih =>
      obtain ⟨ek, en⟩ := e
      unfold keysNodup at hk
      rw [List.map_cons, List.nodup_cons] at hk
      rw [List.mem_cons] at hm
      simp only [FS.find]
      rcases hm with heq | hmem
      · have hk1 : k = ek := congrArg Prod.fst heq
        have hn1 : n = en := congrArg Prod.snd heq
        rw [if_pos hk1, hn1]
      · by_cases hke : k = ek
        · exfalso
          have hmap : k ∈ List.map Prod.fst t := List.mem_map_of_mem Prod.fst hmem
          rw [hke] at hmap
          exact hk.1 hmap
        · rw [if_neg hke]
          exact ih hk.2 hmem

theorem eq_of_mem_keysNodup (fs : FS) (hk : keysNodup fs)
    (e₁ e₂ : List String × Node) (h1 : e₁ ∈ fs) (h2 : e₂ ∈ fs)
    (heq : e₁.1 = e₂.1) : e₁ = e₂ := by
  have f1 : fs.find e₁.1 = some e₁.2 := find_eq_of_mem fs e₁.1 e₁.2 hk h1
  have f2 : fs.find e₂.1 = some e₂.2 := find_eq_of_mem fs e₂.1 e₂.2 hk h2
  rw [heq] at f1
  rw [f1] at f2
  injection f2 with hsnd
  exact Prod.ext heq hsnd

theorem eraseKey_sublist (fs : FS) (k : List String) :
    (fs.eraseKey k).Sublist fs := by
  induction fs with
  | nil => simp [FS.eraseKey]
  | cons e t ih =>
      obtain ⟨ek, en⟩ := e
      simp only [FS.eraseKey]
      by_cases h : k = ek
      · rw [if_pos h]
        exact List.sublist_cons_self _ _
      · rw [if_neg h]
        exact ih.cons₂ _

theorem keysNodup_eraseKey (fs : FS) (k : List String) (hk : keysNodup fs) :
    keysNodup (fs.eraseKey k) :=
  hk.sublist ((eraseKey_sublist fs k).map Prod.fst)

theorem eraseKey_eq_filter (fs : FS) (k : List String) (hk : keysNodup fs) :
    fs.eraseKey k = fs.filter (fun e => !(e.1 == k)) := by
  induction fs with
  | nil => rfl
  | cons e t ih =>
      obtain ⟨ek, en⟩ := e
      unfold keysNodup at hk
      rw [List.map_cons, List.nodup_cons] at hk
      simp only [FS.eraseKey, List.filter_cons]
      by_cases h : k = ek
      · rw [if_pos h]
        have hb : (!((ek, en).1 == k)) = false := by
          simp [h]
        rw [hb]
        simp only [Bool.false_eq_true, if_false]
        symm
        apply List.filter_eq_self.mpr
        intro a ha
        simp only [Bool.not_eq_true', beq_eq_false_iff_ne, ne_eq]
        intro hak
        apply hk.1
        have hmap : a.1 ∈ List.map Prod.fst t := List.mem_map_of_mem Prod.fst ha
        rw [hak, h] at hmap
        exact hmap
      · rw [if_neg h]
        have hb : (!((ek, en).1 == k)) = true := by
          simp only [Bool.not_eq_true', beq_eq_false_iff_ne, ne_eq]
          exact fun hc => h hc.symm
        rw [hb]
        simp only [if_true]
        rw [ih hk.2]

/-- `delete_file` on an existing direct-child file: success payload and
the entry removed. -/
theorem deleteFile_file (root : List String) (x : String) (fs : FS) (c : String)
    (hroot : wfRoot root = true) (hx : validSeg x = true)
    (hfx : fs.find (root ++ [x]) = some (.file c)) :
    deleteFile root fs ⟨false, [x]⟩ =
      ([("path", .str (renderPath (root ++ [x]))),
        ("message", .str "File deleted successfully")],
       fs.eraseKey (root ++ [x])) := by
  have hg : getSafePath root ⟨false, [x]⟩ = .ok (root ++ [x]) :=
    guard_ok root [x] hroot (by
      intro s hs
      rw [List.mem_singleton.mp hs]
      exact hx)
  simp only [deleteFile, hg, hfx]

/-- The delete-all loop over distinct names of existing direct-child
files deletes exactly those entries, counts them all, and collects no
errors. -/
theorem deleteAllLoop_files (root : List String) (hroot : wfRoot root = true) :
    ∀ (names : List String) (fs : FS),
      (∀ x ∈ names, validSeg x = true) →
      names.Nodup →
      keysNodup fs →
      (∀ x ∈ names, ∃ cnd, fs.find (root ++ [x]) = some (.file cnd)) →
      deleteAllLoop root fs names =
        (names.length, [],
         fs.filter (fun e => !(names.any (fun x => e.1 == root ++ [x])))) := by
  intro names
  induction names with
  | nil =>
      intro fs _ _ _ _
      simp [deleteAllLoop]
  | cons x rest ih =>
      intro fs hvalid hnodup hkeys hfile
      obtain ⟨c, hfx⟩ := hfile x (by simp)
      have hdel := deleteFile_file root x fs c hroot (hvalid x (by simp)) hfx
      have hhe : hasErr (deleteFile root fs ⟨false, [x]⟩).1 = false := by
        rw [hdel]
        simp [hasErr, dlookup]
      rw [List.nodup_cons] at hnodup
      have hih := ih (fs.eraseKey (root ++ [x]))
        (fun y hy => hvalid y (by simp [hy]))
        hnodup.2
        (keysNodup_eraseKey fs _ hkeys)
        (by
          intro y hy
          obtain ⟨cy, hcy⟩ := hfile y (by simp [hy])
          refine ⟨cy, ?_⟩
          rw [find_eraseKey_ne fs _ _ ?_]
          · exact hcy
          · intro heq
            have h0 := List.append_cancel_left heq
            simp at h0
            exact hnodup.1 (h0 ▸ hy))
      have hdel2 : (deleteFile root fs ⟨false, [x]⟩).2 = fs.eraseKey (root ++ [x]) := by
        rw [hdel]
      simp only [deleteAllLoop, hhe, Bool.false_eq_true, if_false, hdel2]
      rw [hih]
      refine Prod.ext ?_ (Prod.ext rfl ?_)
      · simp
      · simp only
        rw [eraseKey_eq_filter fs _ hkeys, List.filter_filter]
        apply List.filter_congr
        intro e _
        simp only [List.any_cons, Bool.not_or]
        rw [Bool.and_comm]

/-! ## Claim theorems -/

/-- C1: for every candidate path (absolute, relative, or containing `..`
segments), `_get_safe_path` either fails with the access-denied error or
returns a resolved path that is the allowed root or has the allowed root
as a proper ancestor (list-prefix on resolved segments); it never
returns a path outside the root.  The hypothesis says the allowed root
is itself a `resolve()` output, which `__init__` establishes. -/
theorem c1_get_safe_path_never_escapes (root : List String) (p : RawPath)
    (hroot : wfRoot root = true) :
    (∃ e, getSafePath root p = .error e) ∨
      ∃ q, getSafePath root p = .ok q ∧ root <+: q := by
  by_cases h : isPathAllowed root (resolvePath root p) = true
  · right
    refine ⟨resolvePath root p, ?_, ?_⟩
    · unfold getSafePath
      simp [h]
    · have hidem := resolve_idem (resolvePath root p) (resolvePath_valid root p hroot)
      have h' : root.isPrefixOf (resolveFrom [] (normSegs (resolvePath root p))) = true := h
      rw [hidem] at h'
      exact isPrefixOf_true _ _ h'
  · left
    refine ⟨"Access denied to path: " ++ renderRaw p, ?_⟩
    unfold getSafePath
    simp [h]

/-- Witness for C1: a sandbox root `/home/sandbox` and the traversal
candidate `../../etc/passwd`. -/
theorem c1_get_safe_path_never_escapes_witness :
    wfRoot ["home", "sandbox"] = true ∧
      ((∃ e, getSafePath ["home", "sandbox"]
          ⟨false, ["..", "..", "etc", "passwd"]⟩ = .error e) ∨
        ∃ q, getSafePath ["home", "sandbox"]
          ⟨false, ["..", "..", "etc", "passwd"]⟩ = .ok q ∧
            ["home", "sandbox"] <+: q) :=
  ⟨by decide, c1_get_safe_path_never_escapes ["home", "sandbox"]
    ⟨false, ["..", "..", "etc", "passwd"]⟩ (by decide)⟩

/-- C2: `move_file` guard-checks both endpoints before any mutation: if
the source fails the guard, or the source passes and the destination
fails, the call returns the access-denied error payload and the
filesystem is returned untouched — the source is intact and no
destination parent directory has been created. -/
theorem c2_move_file_guard_no_mutation (root : List String) (fs : FS)
    (src dst : RawPath) :
    (∀ e, getSafePath root src = .error e →
        moveFile root fs src dst = (mkErr e, fs)) ∧
    (∀ s e, getSafePath root src = .ok s → getSafePath root dst = .error e →
        moveFile root fs src dst = (mkErr e, fs)) := by
  constructor
  · intro e he
    unfold moveFile
    rw [he]
  · intro s e hs he
    unfold moveFile
    rw [hs, he]

/-- Witness for C2: a real file `/r/a.txt` moved to the escaping
destination `../out.txt`, and an escaping source `../a.txt`. -/
theorem c2_move_file_guard_no_mutation_witness :
    moveFile ["r"] [(["r"], .dir), (["r", "a.txt"], .file "A")]
        ⟨false, ["a.txt"]⟩ ⟨false, ["..", "out.txt"]⟩ =
      (mkErr "Access denied to path: ../out.txt",
        [(["r"], .dir), (["r", "a.txt"], .file "A")]) ∧
    moveFile ["r"] [(["r"], .dir), (["r", "a.txt"], .file "A")]
        ⟨false, ["..", "a.txt"]⟩ ⟨false, ["b.txt"]⟩ =
      (mkErr "Access denied to path: ../a.txt",
        [(["r"], .dir), (["r", "a.txt"], .file "A")]) :=
  ⟨(c2_move_file_guard_no_mutation ["r"] _ _ _).2 ["r", "a.txt"]
      "Access denied to path: ../out.txt" (by rfl) (by rfl),
   (c2_move_file_guard_no_mutation ["r"] _ _ _).1
      "Access denied to path: ../a.txt" (by rfl)⟩

/-- C3: each of the seven operations, on every input, returns exactly one
of the two disjoint payload shapes: an `{"error": string}` payload, or a
success payload with no `"error"` key — never both, never neither.  (No
operation can raise to its caller: each method body is one
`try`/`except Exception` returning `{"error": str(e)}`, which is why
every operation is a total function of the state in this model.) -/
theorem c3_result_shape_dichotomy (root : List String) (fs : FS)
    (p src dst : RawPath) (content : String) :
    exactlyOneShape (listDirectory root fs p) ∧
    exactlyOneShape (readFile root fs p) ∧
    exactlyOneShape (writeFile root fs p content).1 ∧
    exactlyOneShape (createDirectory root fs p).1 ∧
    exactlyOneShape (deleteFile root fs p).1 ∧
    exactlyOneShape (moveFile root fs src dst).1 ∧
    exactlyOneShape (getFileInfo root fs p) := by
  refine ⟨?_, ?_, ?_, ?_, ?_, ?_, ?_⟩
  · unfold listDirectory
    split
    · exact exactlyOne_err _
    · split
      · exact exactlyOne_err _
      · exact exactlyOne_err _
      · exact exactlyOne_ok (by simp [dlookup])
  · unfold readFile
    split
    · exact exactlyOne_err _
    · split
      · exact exactlyOne_err _
      · exact exactlyOne_err _
      · exact exactlyOne_ok (by simp [dlookup])
  · unfold writeFile
    split
    · exact exactlyOne_err _
    · split
      · exact exactlyOne_err _
      · split
        · exact exactlyOne_err _
        · exact exactlyOne_ok (by simp [dlookup])
  · unfold createDirectory
    split
    · exact exactlyOne_err _
    · split
      · exact exactlyOne_err _
      · exact exactlyOne_ok (by simp [dlookup])
  · unfold deleteFile
    split
    · exact exactlyOne_err _
    · split
      · exact exactlyOne_err _
      · exact exactlyOne_ok (by simp [dlookup])
      · exact exactlyOne_ok (by simp [dlookup])
  · unfold moveFile
    split
    · exact exactlyOne_err _
    · split
      · exact exactlyOne_err _
      · split
        · exact exactlyOne_err _
        · split
          · exact exactlyOne_err _
          · split
            · exact exactlyOne_err _
            · exact exactlyOne_ok (by simp [dlookup])
  · unfold getFileInfo
    split
    · exact exactlyOne_err _
    · split
      · exact exactlyOne_err _
      · exact exactlyOne_ok (by simp [dlookup])

/-- C9: an extracted tool name that is not one of the seven valid names
is coerced to `list_directory` when its lowercase form contains "list"
(with argument "." when the argument text is empty, the given arguments
otherwise); any other invalid name makes the call fail with the
unknown-tool message, which names the invalid tool and contains every
valid tool name. -/
theorem c9_invalid_tool_fallback (toolName toolArgs : String)
    (hinvalid : validTools.contains toolName = false) :
    (containsSeq "list".data (pyLower toolName).data = true →
        resolveToolCall toolName toolArgs =
          .ok ("list_directory", if toolArgs = "" then "." else toolArgs)) ∧
    (containsSeq "list".data (pyLower toolName).data = false →
        resolveToolCall toolName toolArgs = .error (unknownToolMsg toolName) ∧
        strContains toolName (unknownToolMsg toolName) = true ∧
        ∀ t ∈ validTools, strContains t (unknownToolMsg toolName) = true) := by
  constructor
  · intro h
    unfold resolveToolCall
    simp only [hinvalid, h, Bool.false_eq_true, if_false, if_true]
  · intro h
    refine ⟨?_, ?_, ?_⟩
    · unfold resolveToolCall
      simp only [hinvalid, h, Bool.false_eq_true, if_false]
    · unfold strContains unknownToolMsg
      rw [String.data_append, String.data_append, String.data_append,
        List.append_assoc, List.append_assoc]
      exact containsSeq_append_left _ _ _ (containsSeq_self_append _ _)
    · intro t ht
      unfold strContains unknownToolMsg
      rw [String.data_append, String.data_append, String.data_append,
        List.append_assoc, List.append_assoc]
      apply containsSeq_append_left
      apply containsSeq_append_left
      rw [← String.data_append]
      fin_cases ht <;> decide

/-- Witness for C9: the misspelled `list_drectory` with no arguments is
coerced to `list_directory(.)`; `delete_al` fails with the unknown-tool
message. -/
theorem c9_invalid_tool_fallback_witness :
    resolveToolCall "list_drectory" "" = .ok ("list_directory", ".") ∧
    resolveToolCall "delete_al" "x" = .error (unknownToolMsg "delete_al") :=
  ⟨by
    have h := (c9_invalid_tool_fallback "list_drectory" "" (by decide)).1 (by decide)
    simpa using h,
   ((c9_invalid_tool_fallback "delete_al" "x" (by decide)).2 (by decide)).1⟩

/-- C10: every path/content pair produced by the `write_file` argument
parse has been stripped of leading and trailing whitespace (newlines
included) after quote removal: neither component starts or ends with a
whitespace character; only interior whitespace survives. -/
theorem c10_parsed_write_args_stripped (s p c : String)
    (h : parseWriteArgsStr s = some (p, c)) :
    noLeadWs p.data ∧ noTrailWs p.data ∧ noLeadWs c.data ∧ noTrailWs c.data := by
  unfold parseWriteArgsStr at h
  cases hp : parseWriteArgs s.data with
  | none => rw [hp] at h; cases h
  | some ab =>
      rw [hp] at h
      obtain ⟨a, b⟩ := ab
      injection h with h'
      injection h' with h₁ h₂
      obtain ⟨⟨x, hx⟩, y, hy⟩ := parseWriteArgs_stripped _ _ _ hp
      rw [← h₁, ← h₂]
      subst hx hy
      exact ⟨noLead_pstrip x, noTrail_pstrip x, noLead_pstrip y, noTrail_pstrip y⟩

/-- Witness for C10: quoted content with surrounding spaces comes back
with those spaces removed. -/
theorem c10_parsed_write_args_stripped_witness :
    parseWriteArgsStr "'a.txt', ' hi '" = some ("a.txt", "hi") ∧
      (noLeadWs "a.txt".data ∧ noTrailWs "a.txt".data ∧
        noLeadWs "hi".data ∧ noTrailWs "hi".data) :=
  ⟨by decide, c10_parsed_write_args_stripped "'a.txt', ' hi '" "a.txt" "hi" (by decide)⟩

/-- C5: in a `write_file` argument text, only the first comma outside the
optional matching surrounding quotes separates path from content.
Unquoted form: for a path part free of commas and quotes, the split
happens at the first comma and the whole remainder (commas, newlines and
all) becomes the content.  Quoted form: both arguments wrapped in a
matching quote `q`; the path may then even contain commas, the content
may contain anything (commas, newlines, the other quote), the
surrounding quotes are stripped, and the separator is the first comma
after the closing quote.  A text that the two-part shape cannot match
yields the error payload naming the expected `'path', 'content'` form.
The spec's own example parses as stated. -/
theorem c5_write_args_first_comma_split :
    (∀ p c : List Char,
        (∀ ch ∈ p, ch ≠ ',' ∧ isQuote ch = false) →
        (∀ ch ∈ c, isQuote ch = false) →
        parseWriteArgs (p ++ ',' :: c) = some (pstrip p, pstrip c)) ∧
    (∀ (q : Char) (p c : List Char), isQuote q = true → (∀ ch ∈ p, ch ≠ q) →
        parseWriteArgs (q :: (p ++ (q :: (',' :: (q :: (c ++ [q])))))) =
          some (pstrip p, pstrip c)) ∧
    (∀ s, parseWriteArgsStr s = none →
        executeWriteParse s = .error (mkErr ("Invalid arguments for write_file: " ++ s ++
          ". Expected 'path', 'content'"))) ∧
    parseWriteArgsStr "'note.txt', 'line1\nline2'" = some ("note.txt", "line1\nline2") := by
  refine ⟨?_, ?_, ?_, by decide⟩
  · intro p c hp hc
    unfold parseWriteArgs
    have hcm : isSpace ',' = false := rfl
    rw [dropWs_append_cons p c ',' hcm]
    have hqa : quotedPathAttempt (dropWs p ++ ',' :: c) = none := by
      cases hdp : dropWs p with
      | nil =>
          have hqc : isQuote ',' = false := rfl
          simp [quotedPathAttempt, hqc]
      | cons h t =>
          have hh : isQuote h = false :=
            (hp h (mem_dropWs p h (by rw [hdp]; simp))).2
          simp [quotedPathAttempt, hh]
    rw [hqa]
    rw [splitFirstComma_append (dropWs p) c
      (fun ch hch => (hp ch (mem_dropWs p ch hch)).1)]
    simp only [contentSide_no_quote c hc, pstrip_dropWs]
  · intro q p c hq hp
    unfold parseWriteArgs
    have hqs : isSpace q = false := quote_not_space q hq
    have hd : dropWs (q :: (p ++ (q :: (',' :: (q :: (c ++ [q])))))) =
        q :: (p ++ (q :: (',' :: (q :: (c ++ [q]))))) := by
      unfold dropWs
      rw [List.dropWhile_cons]
      simp [hqs]
    rw [hd]
    have hqa : quotedPathAttempt (q :: (p ++ (q :: (',' :: (q :: (c ++ [q])))))) =
        some (p, q :: (c ++ [q])) := by
      show (if isQuote q = true then findClose q (p ++ (q :: (',' :: (q :: (c ++ [q])))))
        else none) = some (p, q :: (c ++ [q]))
      rw [if_pos hq]
      exact findClose_append q p (q :: (c ++ [q])) hp
    rw [hqa]
    have hdq : dropWs (q :: (c ++ [q])) = q :: (c ++ [q]) := by
      unfold dropWs
      rw [List.dropWhile_cons]
      simp [hqs]
    have hcs : contentSide (q :: (c ++ [q])) = c := by
      unfold contentSide
      rw [hdq]
      show (if isQuote q = true then
          (match lastClose q (c ++ [q]) with
            | some a => a
            | none => q :: (c ++ [q]))
        else q :: (c ++ [q])) = c
      rw [if_pos hq, lastClose_concat q c hqs]
    simp only [hcs]
  · intro s h
    unfold executeWriteParse
    rw [h]

/-- Witness for C5: a concrete unquoted split, a concrete quoted pair
whose content holds a comma and a newline, and a concrete parse
failure. -/
theorem c5_write_args_first_comma_split_witness :
    parseWriteArgs ("a.txt".data ++ ',' :: " x,y ".data) =
      some (pstrip "a.txt".data, pstrip " x,y ".data) ∧
    parseWriteArgs ('\'' :: ("p q".data ++ ('\'' :: (',' :: ('\'' :: ("a,b\nc".data ++ ['\''])))))) =
      some (pstrip "p q".data, pstrip "a,b\nc".data) ∧
    executeWriteParse "nocomma" =
      .error (mkErr ("Invalid arguments for write_file: " ++ "nocomma" ++
        ". Expected 'path', 'content'")) :=
  ⟨c5_write_args_first_comma_split.1 "a.txt".data " x,y ".data (by decide) (by decide),
   c5_write_args_first_comma_split.2.1 '\'' "p q".data "a,b\nc".data (by decide) (by decide),
   c5_write_args_first_comma_split.2.2.1 "nocomma" (by decide)⟩

/-- C4: the bulk macros process their file lists strictly sequentially
with asymmetric error policies.  The image-move and image-delete loops
stop at the first failing file: the files after it are never touched
(the run over `pre ++ f :: post` equals the run over `pre ++ [f]`) and
that single file's error is the whole reported message.  The
delete-all-files loop continues past errors: splitting the list
anywhere, the counts and error lists of the two halves add up, and over
any list the success count plus the number of collected errors equals
the number of files — every file is attempted and every error is kept,
in order, alongside the success count. -/
theorem c4_bulk_macro_error_policies :
    (∀ (root : List String) (folder : String) (fs : FS) (pre : List String)
        (f : String) (post : List String),
      (moveImagesLoop root folder fs pre).2 = none →
      hasErr (moveFile root (moveImagesLoop root folder fs pre).1
          ⟨false, [".", f]⟩ ⟨false, [".", folder, f]⟩).1 = true →
      moveImagesLoop root folder fs (pre ++ f :: post) =
        moveImagesLoop root folder fs (pre ++ [f]) ∧
      (moveImagesLoop root folder fs (pre ++ f :: post)).2 =
        some ("‚ùå Error moving " ++ f ++ ": " ++
          getErr (moveFile root (moveImagesLoop root folder fs pre).1
            ⟨false, [".", f]⟩ ⟨false, [".", folder, f]⟩).1)) ∧
    (∀ (root : List String) (fs : FS) (pre : List String)
        (f : String) (post : List String),
      (deleteImagesLoop root fs pre).2 = none →
      hasErr (deleteFile root (deleteImagesLoop root fs pre).1
          ⟨false, [f]⟩).1 = true →
      deleteImagesLoop root fs (pre ++ f :: post) =
        deleteImagesLoop root fs (pre ++ [f]) ∧
      (deleteImagesLoop root fs (pre ++ f :: post)).2 =
        some ("‚ùå Error deleting " ++ f ++ ": " ++
          getErr (deleteFile root (deleteImagesLoop root fs pre).1
            ⟨false, [f]⟩).1)) ∧
    (∀ (root : List String) (pre post : List String) (fs : FS),
      deleteAllLoop root fs (pre ++ post) =
        ((deleteAllLoop root fs pre).1 +
            (deleteAllLoop root (deleteAllLoop root fs pre).2.2 post).1,
         (deleteAllLoop root fs pre).2.1 ++
            (deleteAllLoop root (deleteAllLoop root fs pre).2.2 post).2.1,
         (deleteAllLoop root (deleteAllLoop root fs pre).2.2 post).2.2)) ∧
    (∀ (root : List String) (files : List String) (fs : FS),
      (deleteAllLoop root fs files).1 +
        (deleteAllLoop root fs files).2.1.length = files.length) :=
  ⟨fun root folder fs pre f post => moveImagesLoop_stop root folder pre fs f post,
   fun root fs pre f post => deleteImagesLoop_stop root pre fs f post,
   fun root pre post fs => deleteAllLoop_append root pre post fs,
   fun root files fs => deleteAllLoop_total root files fs⟩

/-- Witness for C4: an image move that fails because the target folder
name exists as a file aborts the batch before the second image; a
delete of a missing file aborts the image-delete batch; the delete-all
loop attempts every file of a concrete list containing one failing
entry. -/
theorem c4_bulk_macro_error_policies_witness :
    (moveImagesLoop ["r"] "pics"
        [(["r"], .dir), (["r", "a.jpg"], .file "A"), (["r", "b.jpg"], .file "B"),
         (["r", "pics"], .file "clash")] (["a.jpg"] ++ ["b.jpg"]) =
      moveImagesLoop ["r"] "pics"
        [(["r"], .dir), (["r", "a.jpg"], .file "A"), (["r", "b.jpg"], .file "B"),
         (["r", "pics"], .file "clash")] ["a.jpg"]) ∧
    (deleteImagesLoop ["r"] [(["r"], .dir)] (["ghost.jpg"] ++ ["x.jpg"]) =
      deleteImagesLoop ["r"] [(["r"], .dir)] ["ghost.jpg"]) ∧
    ((deleteAllLoop ["r"] [(["r"], .dir), (["r", "a.txt"], .file "A")]
        ["a.txt", "ghost.txt"]).1 +
      (deleteAllLoop ["r"] [(["r"], .dir), (["r", "a.txt"], .file "A")]
        ["a.txt", "ghost.txt"]).2.1.length = ["a.txt", "ghost.txt"].length) := by
  refine ⟨?_, ?_, ?_⟩
  · have h := (c4_bulk_macro_error_policies.1 ["r"] "pics"
      [(["r"], .dir), (["r", "a.jpg"], .file "A"), (["r", "b.jpg"], .file "B"),
       (["r", "pics"], .file "clash")] [] "a.jpg" ["b.jpg"] (by rfl) (by decide)).1
    simpa using h
  · have h := (c4_bulk_macro_error_policies.2.1 ["r"] [(["r"], .dir)]
      [] "ghost.jpg" ["x.jpg"] (by rfl) (by decide)).1
    simpa using h
  · exact c4_bulk_macro_error_policies.2.2.2 ["r"] ["a.txt", "ghost.txt"]
      [(["r"], .dir), (["r", "a.txt"], .file "A")]

/-- C6: writing a relative path of plain segments whose intermediate
directories are missing (no path on the way exists as a file, the
target is not a directory) succeeds, creates every missing intermediate
directory, and a subsequent `read_file` of the same path returns exactly
the written content. -/
theorem c6_write_then_read_roundtrip (root : List String) (fs : FS)
    (segs : List String) (content : String)
    (hroot : wfRoot root = true) (hrne : root ≠ []) (hne : segs ≠ [])
    (hsegs : ∀ s ∈ segs, validSeg s = true)
    (hmid : ∀ q, q <+: root ++ segs → q ≠ root ++ segs →
        ∀ cnd, fs.find q ≠ some (.file cnd))
    (htgt : fs.find (root ++ segs) ≠ some .dir) :
    hasErr (writeFile root fs ⟨false, segs⟩ content).1 = false ∧
    (∀ q, q <+: root ++ segs.dropLast → q ≠ [] →
        ((writeFile root fs ⟨false, segs⟩ content).2).find q = some .dir) ∧
    dlookup (readFile root (writeFile root fs ⟨false, segs⟩ content).2
        ⟨false, segs⟩) "content" = some (.str content) := by
  have hg := guard_ok root segs hroot hsegs
  have hparent : (root ++ segs).dropLast = root ++ segs.dropLast :=
    List.dropLast_append_of_ne_nil root hne
  have hslt : segs.dropLast.length < segs.length := by
    rw [List.length_dropLast]
    cases segs with
    | nil => exact absurd rfl hne
    | cons a l => simp
  have hplt : (root ++ segs.dropLast).length < (root ++ segs).length := by
    rw [List.length_append, List.length_append]
    omega
  have hpre_sub : ∀ l : List String, l <+: root ++ segs.dropLast → l <+: root ++ segs := by
    intro l hl
    refine hl.trans ?_
    refine ⟨[segs.getLast hne], ?_⟩
    rw [List.append_assoc, List.dropLast_append_getLast hne]
  obtain ⟨hmk_ok, hmk_dir, hmk_frame⟩ := mkdirP_spec (root ++ segs.dropLast) [] fs (by
    intro l hl hlp cnd
    rw [List.nil_append]
    refine hmid l (hpre_sub l hlp) ?_ cnd
    intro heq
    have hlen := hlp.length_le
    rw [heq] at hlen
    omega)
  rcases hsplit : mkdirP fs [] (root ++ segs.dropLast) with ⟨fs₁, e₁⟩
  rw [hsplit] at hmk_ok hmk_dir hmk_frame
  simp only at hmk_ok hmk_dir hmk_frame
  subst hmk_ok
  have hfind1 : fs₁.find (root ++ segs) = fs.find (root ++ segs) := by
    apply hmk_frame
    intro l hl hlne heq
    rw [List.nil_append] at heq
    have hlen := hl.length_le
    rw [← heq] at hlen
    omega
  have hdir1 : fs₁.find (root ++ segs.dropLast) = some .dir := by
    have h := hmk_dir (root ++ segs.dropLast) ⟨[], List.append_nil _⟩ (by
      intro hz
      exact hrne (List.append_eq_nil.mp hz).1)
    rwa [List.nil_append] at h
  have hnd : fs₁.isDir (root ++ segs) = false := by
    unfold FS.isDir
    rw [hfind1]
    cases hft : fs.find (root ++ segs) with
    | none => rfl
    | some n =>
        cases n with
        | dir => exact absurd hft htgt
        | file c => rfl
  have hpd : fs₁.isDir ((root ++ segs).dropLast) = true := by
    rw [hparent]
    unfold FS.isDir
    rw [hdir1]
  have hwt : writeText fs₁ (root ++ segs) content =
      .ok (fs₁.setNode (root ++ segs) (.file content)) := by
    unfold writeText
    rw [hfind1]
    cases hft : fs.find (root ++ segs) with
    | none => simp [hpd]
    | some n =>
        cases n with
        | dir => exact absurd hft htgt
        | file c => simp [hpd]
  have hw : writeFile root fs ⟨false, segs⟩ content =
      ([("path", .str (renderPath (root ++ segs))), ("size", .num content.length),
        ("message", .str "File written successfully")],
       fs₁.setNode (root ++ segs) (.file content)) := by
    unfold writeFile
    simp only [hg, hparent, hsplit, hwt]
  refine ⟨?_, ?_, ?_⟩
  · rw [hw]
    simp [hasErr, dlookup]
  · intro q hq hqne
    rw [hw]
    simp only
    rw [find_setNode_ne _ _ _ _ (by
      intro heq
      have hlen := hq.length_le
      rw [heq] at hlen
      omega)]
    have h := hmk_dir q hq hqne
    rwa [List.nil_append] at h
  · rw [hw]
    simp only
    unfold readFile
    simp only [hg, find_setNode_self]
    simp [dlookup]

/-- Witness for C6: writing `a/b/c.txt` in a sandbox containing only the
root directory succeeds, creates the intermediate directory `a/b`, and
reading the path back returns the written content. -/
theorem c6_write_then_read_roundtrip_witness :
    hasErr (writeFile ["r"] [(["r"], .dir)] ⟨false, ["a", "b", "c.txt"]⟩ "hi").1 = false ∧
    ((writeFile ["r"] [(["r"], .dir)] ⟨false, ["a", "b", "c.txt"]⟩ "hi").2).find
        ["r", "a", "b"] = some .dir ∧
    dlookup (readFile ["r"] (writeFile ["r"] [(["r"], .dir)]
        ⟨false, ["a", "b", "c.txt"]⟩ "hi").2 ⟨false, ["a", "b", "c.txt"]⟩)
      "content" = some (.str "hi") := by
  obtain ⟨h1, h2, h3⟩ := c6_write_then_read_roundtrip ["r"] [(["r"], .dir)]
    ["a", "b", "c.txt"] "hi" (by decide) (by decide) (by decide) (by decide)
    (by
      intro q _ _ cnd hcontra
      by_cases hq : q = ["r"]
      · rw [hq] at hcontra
        simp [FS.find] at hcontra
      · simp [FS.find, hq] at hcontra)
    (by decide)
  exact ⟨h1, h2 ["r", "a", "b"] ⟨[], rfl⟩ (by decide), h3⟩

/-- C7 (amended): a `write_file` call that succeeds overwrites the
resolved target with the content as text, and its success payload
reports the resolved path and the *character count* of the content as
`"size"`.  (The claim's "number of bytes written" is what the
counterexample refutes: the code publishes `len(content)`, which for
non-ASCII content differs from the UTF-8 byte count actually written.) -/
theorem c7_write_file_success_payload (root : List String) (fs : FS)
    (p : RawPath) (content : String)
    (hok : hasErr (writeFile root fs p content).1 = false) :
    ∃ sp, getSafePath root p = .ok sp ∧
      dlookup (writeFile root fs p content).1 "path" = some (.str (renderPath sp)) ∧
      dlookup (writeFile root fs p content).1 "size" = some (.num content.length) ∧
      ((writeFile root fs p content).2).find sp = some (.file content) := by
  cases hg : getSafePath root p with
  | error e =>
      exfalso
      unfold writeFile at hok
      rw [hg] at hok
      simp [hasErr, mkErr, dlookup] at hok
  | ok sp =>
      refine ⟨sp, rfl, ?_⟩
      rcases hsplit : mkdirP fs [] sp.dropLast with ⟨fs₁, e₁⟩
      cases e₁ with
      | some e =>
          exfalso
          simp only [writeFile, hg, hsplit] at hok
          simp [hasErr, mkErr, dlookup] at hok
      | none =>
          cases hwt : writeText fs₁ sp content with
          | error e =>
              exfalso
              simp only [writeFile, hg, hsplit, hwt] at hok
              simp [hasErr, mkErr, dlookup] at hok
          | ok fs₂ =>
              have hfs₂ : fs₂ = fs₁.setNode sp (.file content) := by
                unfold writeText at hwt
                cases hf : fs₁.find sp with
                | some n =>
                    cases n with
                    | dir =>
                        rw [hf] at hwt
                        simp at hwt
                    | file c =>
                        rw [hf] at hwt
                        by_cases hd : fs₁.isDir sp.dropLast = true
                        · simp [hd] at hwt
                          exact hwt.symm
                        · simp [hd] at hwt
                | none =>
                    rw [hf] at hwt
                    by_cases hd : fs₁.isDir sp.dropLast = true
                    · simp [hd] at hwt
                      exact hwt.symm
                    · simp [hd] at hwt
              subst hfs₂
              simp only [writeFile, hg, hsplit, hwt]
              refine ⟨by simp [dlookup], by simp [dlookup], ?_⟩
              exact find_setNode_self fs₁ sp (.file content)

/-- Counterexample for C7 as stated: writing the one-character content
"é" produces a success payload whose `"size"` is 1 — the character
count — although the UTF-8 encoding written to disk is 2 bytes, so the
payload does not report the number of bytes written. -/
theorem c7_write_file_bytes_counterexample :
    dlookup (writeFile ["r"] [(["r"], Node.dir)] ⟨false, ["f.txt"]⟩ "é").1 "size" =
      some (.num 1) ∧
    "é".length = 1 ∧
    "é".utf8ByteSize = 2 ∧
    dlookup (writeFile ["r"] [(["r"], Node.dir)] ⟨false, ["f.txt"]⟩ "é").1 "size" ≠
      some (.num ("é".utf8ByteSize)) := by
  refine ⟨by decide, by decide, by decide, by decide⟩

/-- Witness for C7 (amended): a concrete successful write publishes the
resolved path and the character count, and stores the content. -/
theorem c7_write_file_success_payload_witness :
    ∃ sp, getSafePath ["r"] ⟨false, ["f.txt"]⟩ = .ok sp ∧
      dlookup (writeFile ["r"] [(["r"], Node.dir)] ⟨false, ["f.txt"]⟩ "hi").1 "path" =
        some (.str (renderPath sp)) ∧
      dlookup (writeFile ["r"] [(["r"], Node.dir)] ⟨false, ["f.txt"]⟩ "hi").1 "size" =
        some (.num "hi".length) ∧
      ((writeFile ["r"] [(["r"], Node.dir)] ⟨false, ["f.txt"]⟩ "hi").2).find sp =
        some (.file "hi") :=
  c7_write_file_success_payload ["r"] [(["r"], Node.dir)] ⟨false, ["f.txt"]⟩ "hi" (by decide)

/-- C8: the delete-all-files macro deletes exactly the direct children
of the root that are files — every other entry, in particular every
directory and everything inside it, is left unchanged — and when files
are present it reports the count of deleted files (with no errors);
with no files present it reports that nothing was there to delete and
the filesystem is untouched. -/
theorem c8_delete_all_files_exact (root : List String) (fs : FS)
    (hroot : wfRoot root = true) (hrdir : fs.find root = some .dir)
    (hkeys : keysNodup fs)
    (hpaths : ∀ e ∈ fs, ∀ s ∈ e.1, validSeg s = true) :
    (deleteAllFilesInCurrentFolder root fs).2 =
      fs.filter (fun e => !(isDirectFileChild root e)) ∧
    ((fs.filter (fun e => isDirectFileChild root e)).length = 0 →
      (deleteAllFilesInCurrentFolder root fs).1 =
        "‚úÖ No files found in the current folder to delete.") ∧
    ((fs.filter (fun e => isDirectFileChild root e)).length ≠ 0 →
      (deleteAllFilesInCurrentFolder root fs).1 =
        "‚úÖ Successfully deleted " ++
          toString (fs.filter (fun e => isDirectFileChild root e)).length ++
          " files in the current folder.") := by
  have hg : getSafePath root ⟨false, ["."]⟩ = .ok root := by
    have hres : resolvePath root ⟨false, ["."]⟩ = root := by
      unfold resolvePath normSegs
      simp [resolveFrom]
    have hallow : isPathAllowed root root = true := by
      unfold isPathAllowed
      rw [resolve_idem root (fun x hx => List.all_eq_true.mp hroot x hx)]
      have h0 := isPrefixOf_append_self root ([] : List String)
      rwa [List.append_nil] at h0
    unfold getSafePath
    simp only [hres, hallow, if_true]
  have hld : listDirectory root fs ⟨false, ["."]⟩ =
      [("path", .str (renderPath root)), ("items", .entries (children fs root)),
       ("count", .num (children fs root).length)] := by
    simp only [listDirectory, hg, hrdir]
  have hherr : hasErr (listDirectory root fs ⟨false, ["."]⟩) = false := by
    rw [hld]
    simp [hasErr, dlookup]
  have hitems : getItems (listDirectory root fs ⟨false, ["."]⟩) = children fs root := by
    rw [hld]
    simp [getItems, dlookup]
  have hnames : (children fs root).filterMap
      (fun it => if it.kind == "file" then some it.name else none) =
      (fs.filter (fun e => isDirectFileChild root e)).map (fun e => e.1.getLastD "") := by
    unfold children
    rw [List.filterMap_filterMap, ← filterMap_if_eq_map_filter]
    apply List.filterMap_congr
    intro e _
    by_cases hlen : e.1.length = root.length + 1
    · by_cases hpre : root.isPrefixOf e.1 = true
      · cases hnode : e.2 with
        | dir =>
            simp [isDirectFileChild, hlen, hpre, hnode]
            decide
        | file c => simp [isDirectFileChild, hlen, hpre, hnode]
      · simp [isDirectFileChild, hlen, hpre]
    · simp [isDirectFileChild, hlen]
  have hmapset : ∀ x, x ∈ (fs.filter (fun e => isDirectFileChild root e)).map
      (fun e => e.1.getLastD "") → ∃ cnd, (root ++ [x], Node.file cnd) ∈ fs := by
    intro x hx
    obtain ⟨e, he, hex⟩ := List.mem_map.mp hx
    obtain ⟨hef, hed⟩ := List.mem_filter.mp he
    obtain ⟨x', cnd, h1, h2⟩ := (directFileChild_iff root e).mp hed
    have hx' : x' = x := by
      rw [← hex, h1]
      simp
    refine ⟨cnd, ?_⟩
    have hee : e = (root ++ [x], Node.file cnd) := by
      refine Prod.ext ?_ h2
      rw [h1, hx']
    rw [← hee]
    exact hef
  have hvalidnames : ∀ x ∈ (fs.filter (fun e => isDirectFileChild root e)).map
      (fun e => e.1.getLastD ""), validSeg x = true := by
    intro x hx
    obtain ⟨cnd, hmem⟩ := hmapset x hx
    refine hpaths (root ++ [x], Node.file cnd) hmem x ?_
    simp
  have hfindnames : ∀ x ∈ (fs.filter (fun e => isDirectFileChild root e)).map
      (fun e => e.1.getLastD ""), ∃ cnd, fs.find (root ++ [x]) = some (.file cnd) := by
    intro x hx
    obtain ⟨cnd, hmem⟩ := hmapset x hx
    exact ⟨cnd, find_eq_of_mem fs (root ++ [x]) (Node.file cnd) hkeys hmem⟩
  have hkeysF : ((fs.filter (fun e => isDirectFileChild root e)).map Prod.fst).Nodup :=
    hkeys.sublist ((List.filter_sublist fs).map Prod.fst)
  have hnodupF : (fs.filter (fun e => isDirectFileChild root e)).Nodup :=
    List.Nodup.of_map Prod.fst hkeysF
  have hnodnames : ((fs.filter (fun e => isDirectFileChild root e)).map
      (fun e => e.1.getLastD "")).Nodup := by
    refine List.Nodup.map_on ?_ hnodupF
    intro e1 h1 e2 h2 heq
    obtain ⟨x1, c1, h11, h12⟩ := (directFileChild_iff root e1).mp (List.mem_filter.mp h1).2
    obtain ⟨x2, c2, h21, h22⟩ := (directFileChild_iff root e2).mp (List.mem_filter.mp h2).2
    refine eq_of_mem_keysNodup fs hkeys e1 e2 (List.mem_filter.mp h1).1
      (List.mem_filter.mp h2).1 ?_
    rw [h11, h21] at heq
    simp at heq
    rw [h11, h21, heq]
  by_cases hempty : (fs.filter (fun e => isDirectFileChild root e)).length = 0
  · have hfilnil : fs.filter (fun e => isDirectFileChild root e) = [] :=
      List.length_eq_zero.mp hempty
    have hmac : deleteAllFilesInCurrentFolder root fs =
        ("‚úÖ No files found in the current folder to delete.", fs) := by
      unfold deleteAllFilesInCurrentFolder
      simp only [hherr, Bool.false_eq_true, if_false, hitems, hnames, hfilnil,
        List.map_nil, List.isEmpty_nil, if_true]
    refine ⟨?_, ?_, ?_⟩
    · rw [hmac]
      symm
      apply List.filter_eq_self.mpr
      intro e he
      have hd : isDirectFileChild root e = false := by
        by_contra hc
        rw [Bool.not_eq_false] at hc
        have hmem : e ∈ fs.filter (fun e => isDirectFileChild root e) :=
          List.mem_filter.mpr ⟨he, hc⟩
        rw [hfilnil] at hmem
        cases hmem
      rw [hd]
      rfl
    · intro _
      rw [hmac]
    · intro hc
      exact absurd hempty hc
  · have hne : fs.filter (fun e => isDirectFileChild root e) ≠ [] := by
      intro h0
      exact hempty (by rw [h0]; rfl)
    have hnamesne : (fs.filter (fun e => isDirectFileChild root e)).map
        (fun e => e.1.getLastD "") ≠ [] := by
      intro h0
      exact hne (List.map_eq_nil_iff.mp h0)
    have hloop := deleteAllLoop_files root hroot
      ((fs.filter (fun e => isDirectFileChild root e)).map (fun e => e.1.getLastD "")) fs
      hvalidnames hnodnames hkeys hfindnames
    have hisE : ((fs.filter (fun e => isDirectFileChild root e)).map
        (fun e => e.1.getLastD "")).isEmpty = false := by
      rw [List.isEmpty_eq_false]
      exact hnamesne
    have hmac : deleteAllFilesInCurrentFolder root fs =
        ("‚úÖ Successfully deleted " ++
            toString (fs.filter (fun e => isDirectFileChild root e)).length ++
            " files in the current folder.",
         fs.filter (fun e =>
           !(((fs.filter (fun e => isDirectFileChild root e)).map
              (fun e => e.1.getLastD "")).any (fun x => e.1 == root ++ [x])))) := by
      unfold deleteAllFilesInCurrentFolder
      simp only [hherr, Bool.false_eq_true, if_false, hitems, hnames, hisE, hloop,
        List.length_map]
    have hfiltereq : fs.filter (fun e =>
        !(((fs.filter (fun e => isDirectFileChild root e)).map
          (fun e => e.1.getLastD "")).any (fun x => e.1 == root ++ [x]))) =
        fs.filter (fun e => !(isDirectFileChild root e)) := by
      apply List.filter_congr
      intro e he
      congr 1
      cases hd : isDirectFileChild root e with
      | true =>
          obtain ⟨x, cnd, h1, h2⟩ := (directFileChild_iff root e).mp hd
          apply List.any_eq_true.mpr
          refine ⟨e.1.getLastD "",
            List.mem_map_of_mem _ (List.mem_filter.mpr ⟨he, hd⟩), ?_⟩
          rw [h1]
          simp
      | false =>
          rw [← Bool.not_eq_true]
          intro hany
          obtain ⟨x, hxmem, hxe⟩ := List.any_eq_true.mp hany
          obtain ⟨cnd, hmem⟩ := hmapset x hxmem
          have he1 : e.1 = root ++ [x] := beq_iff_eq.mp hxe
          have hee : e = (root ++ [x], Node.file cnd) :=
            eq_of_mem_keysNodup fs hkeys e _ he hmem (by rw [he1])
          have hdt : isDirectFileChild root e = true :=
            (directFileChild_iff root e).mpr ⟨x, cnd, he1, by rw [hee]⟩
          rw [hd] at hdt
          cases hdt
    refine ⟨?_, ?_, ?_⟩
    · rw [hmac]
      exact hfiltereq
    · intro hc
      exact absurd hc hempty
    · intro _
      rw [hmac]

/-- Witness for C8: on a root with three files and one subdirectory the
macro deletes exactly the three files, reports count 3, and the
subdirectory with its contents survives. -/
theorem c8_delete_all_files_exact_witness :
    (deleteAllFilesInCurrentFolder ["r"] sampleFs).2 =
      sampleFs.filter (fun e => !(isDirectFileChild ["r"] e)) ∧
    (sampleFs.filter (fun e => isDirectFileChild ["r"] e)).length = 3 ∧
    (deleteAllFilesInCurrentFolder ["r"] sampleFs).1 =
      "‚úÖ Successfully deleted 3 files in the current folder." ∧
    (deleteAllFilesInCurrentFolder ["r"] sampleFs).2 =
      [(["r"], .dir), (["r", "sub"], .dir), (["r", "sub", "keep.txt"], .file "K")] := by
  obtain ⟨h1, _, h3⟩ := c8_delete_all_files_exact ["r"] sampleFs (by decide) (by decide)
    (by unfold keysNodup sampleFs; decide) (by decide)
  refine ⟨h1, by decide, ?_, ?_⟩
  · rw [h3 (by decide)]
    decide
  · rw [h1]
    decide

end OFA
